import Mathlib

/-!
A shallow embedding of the topology-to-equations pipeline of the
Circuit-Theory repository (src/engine): graph construction and
connectivity validation (phases/graph_builder.py), weighted
spanning-tree selection (phases/tree_selector.py), fundamental matrix
generation (phases/matrix_generator.py), symbolic equation assembly
(phases/equation_builder.py), and the orchestration prefix of
solver.py, together with proofs of the specified properties.

Python floats are modelled as rationals, numpy arrays as Lean matrices
over the rationals (with the twig/link column split of the reduced
incidence, cut-set and tie-set matrices indexed by a sum type), and
sympy expressions as an inductive expression type evaluated over the
rationals.  NetworkX connectivity and Kruskal bookkeeping are modelled
by an eager (flat) union-find over node indices.
-/

namespace Circuit

/-- A circuit branch, as in the input dictionaries consumed by
src/engine: fields id, from, to, type, value.  The Python keys from and
to are Lean keywords and type is a core name, so they appear here as
fromN, toN and ty. -/
structure Branch where
  id : String
  fromN : String
  toN : String
  ty : String
  value : ℚ
deriving DecidableEq

/-- The circuit description (circuit_data in the source): a list of
node identifiers and a list of branches. -/
structure CircuitData where
  nodes : List String
  branches : List Branch
deriving DecidableEq

/-- One edge of the NetworkX MultiGraph built by build_graph:
endpoints, key (the branch id), the type and value attributes, and the
weight attribute, absent (none) until select_tree assigns it. -/
structure GEdge where
  u : String
  v : String
  key : String
  ty : String
  value : ℚ
  weight : Option ℕ
deriving DecidableEq

/-- The NetworkX MultiGraph: nodes and edges in insertion order. -/
structure Graph where
  nodes : List String
  edges : List GEdge
deriving DecidableEq

/-- The error dictionaries returned by build_graph and
get_cutset_matrix. -/
structure ErrDict where
  status : String
  message : String
deriving DecidableEq

/-! ### Union-find over node indices

NetworkX decides is_connected and performs the Kruskal component
bookkeeping with a union-find over nodes.  We model both with a flat
labelling: entry x of the label list is the representative of node x,
and a union relabels every member of one class at once. -/

/-- Representative of node x under labelling l (x itself when out of
range). -/
def ufFind (l : List ℕ) (x : ℕ) : ℕ := l.getD x x

/-- Merge the class labelled a into the class labelled b. -/
def ufUnion (l : List ℕ) (a b : ℕ) : List ℕ :=
  l.map fun x => if x = a then b else x

/-- Process one undirected edge: merge its endpoint classes when they
differ. -/
def ufStep (l : List ℕ) (e : ℕ × ℕ) : List ℕ :=
  if ufFind l e.1 = ufFind l e.2 then l
  else ufUnion l (ufFind l e.1) (ufFind l e.2)

/-- Labelling after processing all edges, starting from n singleton
classes. -/
def ufRun (n : ℕ) (es : List (ℕ × ℕ)) : List ℕ :=
  es.foldl ufStep (List.range n)

/-- Number of connected components of the graph on vertices 0..n-1 with
edge list es. -/
def numComponents (n : ℕ) (es : List (ℕ × ℕ)) : ℕ :=
  (ufRun n es).dedup.length

/-! ### Phase 1: graph construction and validation -/

/-- Append a node if not already present (NetworkX node insertion
keeps the first occurrence). -/
def addNode (acc : List String) (n : String) : List String :=
  if n ∈ acc then acc else acc ++ [n]

/-- The node list of the MultiGraph built by build_graph:
G.add_nodes_from(nodes) followed by G.add_edge for every branch, which
inserts any endpoint that is not yet a node. -/
def graphNodes (nodes : List String) (branches : List Branch) : List String :=
  (nodes ++ (branches.map fun b => [b.fromN, b.toN]).flatten).foldl addNode []

/-- Index of a node name in a node list (the node_map dictionary). -/
def idxOf (ns : List String) (x : String) : ℕ := ns.indexOf x

/-- Edge list of the circuit multigraph as vertex-index pairs. -/
def idxPairs (ns : List String) (branches : List Branch) : List (ℕ × ℕ) :=
  branches.map fun b => (idxOf ns b.fromN, idxOf ns b.toN)

/-- The graph edge recorded for a branch by G.add_edge (graph_builder.py
lines 43-50). -/
def toGEdge (b : Branch) : GEdge :=
  { u := b.fromN, v := b.toN, key := b.id, ty := b.ty, value := b.value, weight := none }

/-- The connectivity error message of build_graph (graph_builder.py
line 56). -/
def unconnectedMsg : String :=
  "Circuit is not connected. All nodes must form a connected graph with node \x270\x27 as reference."

/-- The error dictionary returned on a disconnected circuit
(graph_builder.py lines 54-57). -/
def unconnectedErr : ErrDict := { status := "error", message := unconnectedMsg }

/-- Phase 1, build_graph (src/engine/phases/graph_builder.py): build
the MultiGraph, then return (None, error_dict) when nx.is_connected
fails and (graph, None) otherwise.  nx.is_connected holds exactly when
the graph has one connected component; the null graph (no nodes at
all), on which NetworkX instead raises an exception, is outside the
scope of every theorem below. -/
def buildGraph (cd : CircuitData) : Option Graph × Option ErrDict :=
  let ns := graphNodes cd.nodes cd.branches
  let G : Graph := { nodes := ns, edges := cd.branches.map toGEdge }
  if numComponents ns.length (idxPairs ns cd.branches) = 1 then (some G, none)
  else (none, some unconnectedErr)

/-! ### Phase 2: spanning tree selection -/

/-- Branch selection weight (tree_selector.py lines 34-40): voltage
sources get weight 0, current sources 100, everything else 1. -/
def weightOf (ty : String) : ℕ :=
  if ty = "V" then 0 else if ty = "I" then 100 else 1

/-- An edge prepared for Kruskal: endpoint indices into the graph node
list, the branch id, and the weight read back from the weight
attribute (d.get with default 1, as in networkx). -/
structure IEdge where
  u : ℕ
  v : ℕ
  key : String
  w : ℕ
deriving DecidableEq

/-- Kruskal edge selection as in networkx.minimum_spanning_edges
(algorithm kruskal, the default): scan edges in ascending weight order
and take an edge exactly when its endpoints lie in different
components, merging the two components. -/
def kruskalGo (l : List ℕ) : List IEdge → List IEdge
  | [] => []
  | e :: es =>
    if ufFind l e.u = ufFind l e.v then kruskalGo l es
    else e :: kruskalGo (ufStep l (e.u, e.v)) es

/-- The weight-assignment loop of select_tree (tree_selector.py lines
34-40): writes the weight attribute on every edge of the graph it was
given (the Python function mutates the graph in place; here the
mutated graph is returned). -/
def weightedGraph (g : Graph) : Graph :=
  { nodes := g.nodes
    edges := g.edges.map fun e => { e with weight := some (weightOf e.ty) } }

/-- The edges of a graph as Kruskal works on them: endpoint indices into
the node list, the branch id, and the weight attribute read back with
default 1 (d.get in networkx). -/
def graphIEdges (g : Graph) : List IEdge :=
  g.edges.map fun e =>
    { u := idxOf g.nodes e.u, v := idxOf g.nodes e.v, key := e.key,
      w := e.weight.getD 1 }

/-- The weighted edges in the ascending weight order that Kruskal
processes.  The relative order among equal-weight edges (NetworkX
edge-iteration order) is modelled as the stable sort of insertion
order; every property proved below is independent of this tie-break,
as the specification demands of tests. -/
def sortedIEdges (g : Graph) : List IEdge :=
  (graphIEdges (weightedGraph g)).mergeSort fun a b => decide (a.w ≤ b.w)

/-- The spanning forest chosen by nx.minimum_spanning_edges. -/
def selectedEdges (g : Graph) : List IEdge :=
  kruskalGo (List.range g.nodes.length) (sortedIEdges g)

/-- tree_branch_ids (tree_selector.py line 44). -/
def treeIds (g : Graph) : List String := (selectedEdges g).map IEdge.key

/-- Phase 2, select_tree (src/engine/phases/tree_selector.py).  Returns
the graph with the weight attribute written on every edge, the twig
list and link list (each in original branch order), and the combined
ordering twigs ++ links. -/
def selectTree (g : Graph) (branches : List Branch) :
    Graph × List Branch × List Branch × List Branch :=
  let twigs := branches.filter fun b => b.id ∈ treeIds g
  let links := branches.filter fun b => b.id ∉ treeIds g
  (weightedGraph g, twigs, links, twigs ++ links)

/-! ### Phase 3: matrix formation -/

/-- Phase 3a, get_incidence_matrix (matrix_generator.py lines 15-61).
The node index dictionary is built from the declared node list; looking
up a branch endpoint that is not a declared node raises KeyError in
Python, modelled here by returning none.  A_full is an n_nodes by
n_branches array with +1 at [from, j] and -1 at [to, j], the -1 written
second so a self-loop ends at -1; A_reduced deletes the row of node 0
when present, else the last row. -/
def getIncidenceMatrix (nodes : List String) (branches : List Branch) :
    Option ((ℕ → ℕ → ℚ) × (ℕ → ℕ → ℚ) × ℕ) :=
  if branches.all fun b => decide (b.fromN ∈ nodes) && decide (b.toN ∈ nodes) then
    let AFull : ℕ → ℕ → ℚ := fun i j =>
      match branches[j]? with
      | none => 0
      | some b =>
        if i = idxOf nodes b.toN then -1
        else if i = idxOf nodes b.fromN then 1
        else 0
    let ref : ℕ := if "0" ∈ nodes then idxOf nodes "0" else nodes.length - 1
    let ARed : ℕ → ℕ → ℚ := fun i j => AFull (if i < ref then i else i + 1) j
    some (ARed, AFull, ref)
  else none

/-- Exact rational matrix inverse, defined exactly on invertible input.
np.linalg.inv raises LinAlgError on a singular matrix, modelled as
none; on success it returns the true inverse, here det⁻¹ • adjugate. -/
def matInv {n : ℕ} (A : Matrix (Fin n) (Fin n) ℚ) :
    Option (Matrix (Fin n) (Fin n) ℚ) :=
  if A.det = 0 then none else some (A.det⁻¹ • A.adjugate)

/-- The twig-column block A_t = A_red[:, :n_twigs]: the columns of the
sum-indexed matrix tagged inl. -/
def twigBlock {t l : ℕ} (A : Matrix (Fin t) (Fin t ⊕ Fin l) ℚ) :
    Matrix (Fin t) (Fin t) ℚ :=
  Matrix.of fun i j => A i (Sum.inl j)

/-- The link-column block A_l = A_red[:, n_twigs:]: the columns tagged
inr. -/
def linkBlock {t l : ℕ} (A : Matrix (Fin t) (Fin t ⊕ Fin l) ℚ) :
    Matrix (Fin t) (Fin l) ℚ :=
  Matrix.of fun i j => A i (Sum.inr j)

/-- The error dictionary of get_cutset_matrix (matrix_generator.py
lines 91-94); the Details part carries the LinAlgError text, which is
Singular matrix for a singular input. -/
def singularErr : ErrDict :=
  { status := "error"
    message := "Singular matrix error: Cannot invert tree submatrix. Check circuit topology. Details: Singular matrix" }

/-- Phase 3b, get_cutset_matrix (matrix_generator.py lines 64-100):
split A_red into twig columns A_t and link columns A_l, invert A_t
(returning (None, error) when singular), then Q = [I | Q_l] with
Q_l = -(A_t)⁻¹ A_l.  Columns are indexed by Fin t ⊕ Fin l, inl being
the first n_twigs columns, matching the [:, :n_twigs] / [:, n_twigs:]
split of the source. -/
def getCutsetMatrix {t l : ℕ} (Ared : Matrix (Fin t) (Fin t ⊕ Fin l) ℚ) :
    Option (Matrix (Fin t) (Fin t ⊕ Fin l) ℚ) × Option ErrDict :=
  match matInv (twigBlock Ared) with
  | none => (none, some singularErr)
  | some Ati => (some (Matrix.fromColumns 1 (-(Ati * linkBlock Ared))), none)

/-- Phase 3c, get_tieset_matrix (matrix_generator.py lines 103-123):
B = [B_t | I] with B_t = -Q_l transposed; a pure construction with no
failure path. -/
def getTiesetMatrix {t l : ℕ} (Ql : Matrix (Fin t) (Fin l) ℚ) :
    Matrix (Fin l) (Fin t ⊕ Fin l) ℚ :=
  Matrix.fromColumns (-Ql.transpose) 1

/-! ### Phase 4: equation assembly -/

/-- Symbolic s-domain expressions: the fragment of sympy expressions
that build_equations constructs. -/
inductive Expr where
  | const (q : ℚ)
  | var (name : String)
  | svar
  | add (a b : Expr)
  | sub (a b : Expr)
  | mul (a b : Expr)
  | div (a b : Expr)
deriving DecidableEq

/-- Evaluation of an expression at a valuation of the symbols and a
rational value of s (division is total Lean division). -/
def Expr.eval (v : String → ℚ) (s : ℚ) : Expr → ℚ
  | .const q => q
  | .var n => v n
  | .svar => s
  | .add a b => a.eval v s + b.eval v s
  | .sub a b => a.eval v s - b.eval v s
  | .mul a b => a.eval v s * b.eval v s
  | .div a b => a.eval v s / b.eval v s

/-- The voltage symbol of a branch. -/
def vName (b : Branch) : String := "V_" ++ b.id

/-- The current symbol of a branch. -/
def iName (b : Branch) : String := "I_" ++ b.id

/-- The V-I relation emitted for one branch by the if/elif chain of
build_equations (equation_builder.py lines 63-87); none for a type
outside R, L, C, V, I, for which the loop appends nothing. -/
def constitutiveEq (b : Branch) : Option Expr :=
  if b.ty = "R" then
    some (.sub (.var (vName b)) (.mul (.var (iName b)) (.const b.value)))
  else if b.ty = "L" then
    some (.sub (.var (vName b)) (.mul (.mul (.var (iName b)) .svar) (.const b.value)))
  else if b.ty = "C" then
    some (.sub (.var (vName b)) (.mul (.var (iName b)) (.div (.const 1) (.mul .svar (.const b.value)))))
  else if b.ty = "V" then
    some (.sub (.var (vName b)) (.div (.const b.value) .svar))
  else if b.ty = "I" then
    some (.sub (.var (iName b)) (.div (.const b.value) .svar))
  else none

/-- Phase 4, build_equations (src/engine/phases/equation_builder.py):
n_twigs KCL rows (each the accumulated sum 0 + Q[i,0]·I_0 + ...),
n_links KVL rows over B and the V symbols, then one constitutive
relation per branch of recognised type; unknowns are all V symbol names
in branch order followed by all I symbol names. -/
def buildEquations (bs : List Branch) (Q B : ℕ → ℕ → ℚ) (nt nl : ℕ) :
    List Expr × List String :=
  let Vsym := bs.map fun b => Expr.var (vName b)
  let Isym := bs.map fun b => Expr.var (iName b)
  let kcl := (List.range nt).map fun i =>
    (List.range bs.length).foldl
      (fun acc j => .add acc (.mul (.const (Q i j)) (Isym.getD j (.const 0))))
      (.const 0)
  let kvl := (List.range nl).map fun i =>
    (List.range bs.length).foldl
      (fun acc j => .add acc (.mul (.const (B i j)) (Vsym.getD j (.const 0))))
      (.const 0)
  let vi := bs.filterMap constitutiveEq
  (kcl ++ kvl ++ vi, (bs.map vName) ++ (bs.map iName))

/-! ### Orchestrator prefix (solver.py) -/

/-- How far solve_circuit gets and with what: an error dictionary
returned by a phase, an uncaught Python exception, or the assembled
system handed to the external solver (phases 5-7 are external
collaborators in the specification and only consume this output). -/
inductive Outcome where
  | errDict (e : ErrDict)
  | raise (msg : String)
  | ok (equations : List Expr) (unknowns : List String)
deriving DecidableEq

/-- Column index of the sum-indexed matrices in the flat numpy layout:
twig column j is column j, link column j is column n_twigs + j. -/
def sumIdx {t l : ℕ} : Fin t ⊕ Fin l → ℕ
  | .inl j => j.val
  | .inr j => t + j.val

/-- get_cutset_matrix as called on the flat reduced incidence array by
the orchestrator.  The array has rows = number of non-reference
declared nodes; its twig block is square only when rows = n_twigs, and
on a non-square block np.linalg.inv raises a LinAlgError that the
source catches into the same error dictionary. -/
def getCutsetMatrixD (Ared : ℕ → ℕ → ℚ) (rows nt nl : ℕ) :
    Option (ℕ → ℕ → ℚ) × Option ErrDict :=
  if rows = nt then
    match getCutsetMatrix (t := nt) (l := nl)
        (Matrix.of fun i j => Ared i.val (sumIdx j)) with
    | (none, e) => (none, e)
    | (some Qf, e) =>
      (some fun i j =>
        if hi : i < nt then
          if hj : j < nt then Qf ⟨i, hi⟩ (Sum.inl ⟨j, hj⟩)
          else if hj2 : j - nt < nl then Qf ⟨i, hi⟩ (Sum.inr ⟨j - nt, hj2⟩)
          else 0
        else 0, e)
  else (none, some singularErr)

/-- get_tieset_matrix on the flat link block Q[:, n_twigs:], as called
by the orchestrator. -/
def getTiesetMatrixD (Q : ℕ → ℕ → ℚ) (nt nl : ℕ) : ℕ → ℕ → ℚ :=
  let Bf := getTiesetMatrix (t := nt) (l := nl)
    (Matrix.of fun i j => Q i.val (nt + j.val))
  fun i j =>
    if hi : i < nl then
      if hj : j < nt then Bf ⟨i, hi⟩ (Sum.inl ⟨j, hj⟩)
      else if hj2 : j - nt < nl then Bf ⟨i, hi⟩ (Sum.inr ⟨j - nt, hj2⟩)
      else 0
    else 0

/-- The core pipeline of solve_circuit (src/engine/solver.py lines
48-74) through phase 4: graph build and validation, tree selection,
matrix formation, equation assembly, short-circuiting on any returned
error exactly as the source does. -/
def solveCore (cd : CircuitData) : Outcome :=
  match buildGraph cd with
  | (_, some e) => .errDict e
  | (g?, none) =>
    let g := g?.getD { nodes := [], edges := [] }
    let r := selectTree g cd.branches
    let twigs := r.2.1
    let links := r.2.2.1
    let sortedBs := r.2.2.2
    match getIncidenceMatrix cd.nodes sortedBs with
    | none => .raise "KeyError"
    | some (Ared, _, _) =>
      match getCutsetMatrixD Ared (cd.nodes.length - 1) twigs.length links.length with
      | (_, some e) => .errDict e
      | (Q?, none) =>
        let Q := Q?.getD fun _ _ => 0
        let Bm := getTiesetMatrixD Q twigs.length links.length
        let es := buildEquations sortedBs Q Bm twigs.length links.length
        .ok es.1 es.2

/-! ### Specification-side predicates and concrete example circuits -/

/-- Well-formedness of a flat union-find labelling for n nodes: one
entry per node, every label is a node in range, and labels are their
own representatives. -/
def UFOk (n : ℕ) (l : List ℕ) : Prop :=
  l.length = n ∧ ∀ x ∈ l, x < n ∧ l.getD x x = x

/-- All edges of the list join nodes in range. -/
def EdgesOk (n : ℕ) (es : List (ℕ × ℕ)) : Prop :=
  ∀ e ∈ es, e.1 < n ∧ e.2 < n

/-- Undirected adjacency given by a list of index pairs. -/
def pairRel (es : List (ℕ × ℕ)) (a b : ℕ) : Prop :=
  (a, b) ∈ es ∨ (b, a) ∈ es

/-- The endpoints of one weighted Kruskal edge as an index pair. -/
def toPair (e : IEdge) : ℕ × ℕ := (e.u, e.v)

/-- The Kruskal edge a branch turns into, over a fixed node list. -/
def brEdge (ns : List String) (b : Branch) : IEdge :=
  { u := idxOf ns b.fromN, v := idxOf ns b.toN, key := b.id,
    w := weightOf b.ty }

/-- The MultiGraph that build_graph constructs for a circuit. -/
def circuitGraph (cd : CircuitData) : Graph :=
  { nodes := graphNodes cd.nodes cd.branches
    edges := cd.branches.map toGEdge }

/-- Mathematical connectivity of the circuit multigraph: every two
graph nodes are joined by a chain of branches, stated as the
equivalence closure of branch adjacency over node indices.  This is
the notion the specification quantifies over; the theorems relate it
to the component count that build_graph actually checks. -/
def ConnectedData (cd : CircuitData) : Prop :=
  ∀ x, x < (graphNodes cd.nodes cd.branches).length →
    ∀ y, y < (graphNodes cd.nodes cd.branches).length →
      Relation.EqvGen
        (pairRel (idxPairs (graphNodes cd.nodes cd.branches) cd.branches)) x y

/-- The series RLC scenario of the specification (also the built-in
test circuit of solver.py): step voltage source V1, resistor R1,
capacitor C1 with value 0.1. -/
def rlcData : CircuitData :=
  { nodes := ["0", "1", "2"]
    branches :=
      [ { id := "V1", fromN := "1", toN := "0", ty := "V", value := 10 }
      , { id := "R1", fromN := "1", toN := "2", ty := "R", value := 5 }
      , { id := "C1", fromN := "2", toN := "0", ty := "C", value := 1/10 } ] }

/-- Two declared nodes and no branch between them: the canonical
disconnected input. -/
def discData : CircuitData := { nodes := ["0", "1"], branches := [] }

/-- A circuit whose branch R2 cites node 2, absent from the declared
node list. -/
def badEndpointData : CircuitData :=
  { nodes := ["0", "1"]
    branches :=
      [ { id := "R1", fromN := "0", toN := "1", ty := "R", value := 1 }
      , { id := "R2", fromN := "1", toN := "2", ty := "R", value := 1 } ] }

/-- The reduced incidence matrix of the RLC scenario under the branch
order V1, R1, C1 (twigs V1 and R1, link C1), used as a concrete
invertible instance. -/
def aredRLC : Matrix (Fin 2) (Fin 2 ⊕ Fin 1) ℚ :=
  Matrix.of fun i j =>
    match j with
    | Sum.inl j2 => !![(1 : ℚ), 1; 0, -1] i j2
    | Sum.inr _ => !![(0 : ℚ); 1] i 0

/-- A singular 2 by 2 twig block: two parallel copies of the same
column. -/
def aredSing : Matrix (Fin 2) (Fin 2 ⊕ Fin 1) ℚ :=
  Matrix.of fun i j =>
    match j with
    | Sum.inl _ => !![(1 : ℚ), 1; -1, -1] i 0
    | Sum.inr _ => !![(0 : ℚ); 1] i 0

/-! ### Union-find lemmas -/

theorem ufFind_of_lt {l : List ℕ} {x : ℕ} (h : x < l.length) :
    ufFind l x = l[x] :=
  List.getD_eq_getElem l x h

theorem ufFind_of_ge {l : List ℕ} {x : ℕ} (h : l.length ≤ x) :
    ufFind l x = x :=
  List.getD_eq_default l x h

theorem ufFind_range (n x : ℕ) : ufFind (List.range n) x = x := by
  rcases lt_or_ge x n with h | h
  · rw [ufFind_of_lt (by simpa using h), List.getElem_range]
  · exact ufFind_of_ge (by simpa using h)

theorem UFOk_range (n : ℕ) : UFOk n (List.range n) := by
  refine ⟨List.length_range n, ?_⟩
  intro x hx
  exact ⟨List.mem_range.mp hx, ufFind_range n x⟩

theorem ufFind_mem {n : ℕ} {l : List ℕ} (h : UFOk n l) {x : ℕ} (hx : x < n) :
    ufFind l x ∈ l := by
  rw [ufFind_of_lt (h.1 ▸ hx)]
  exact List.getElem_mem _

theorem ufFind_lt {n : ℕ} {l : List ℕ} (h : UFOk n l) {x : ℕ} (hx : x < n) :
    ufFind l x < n :=
  (h.2 _ (ufFind_mem h hx)).1

theorem ufFind_fix {n : ℕ} {l : List ℕ} (h : UFOk n l) {a : ℕ} (ha : a ∈ l) :
    ufFind l a = a :=
  (h.2 a ha).2

theorem ufUnion_length (l : List ℕ) (a b : ℕ) :
    (ufUnion l a b).length = l.length := by
  simp [ufUnion]

theorem ufFind_ufUnion {n : ℕ} {l : List ℕ} (h : UFOk n l) {a b : ℕ}
    (ha : a ∈ l) (x : ℕ) :
    ufFind (ufUnion l a b) x = if ufFind l x = a then b else ufFind l x := by
  rcases lt_or_ge x l.length with hx | hx
  · have hx2 : x < (ufUnion l a b).length := by rw [ufUnion_length]; exact hx
    rw [ufFind_of_lt hx2, ufFind_of_lt hx]
    simp [ufUnion]
  · have h1 : ufFind (ufUnion l a b) x = x :=
      ufFind_of_ge (by rw [ufUnion_length]; exact hx)
    have h2 : ufFind l x = x := ufFind_of_ge hx
    have haN : a < n := (h.2 a ha).1
    have hlen : l.length = n := h.1
    have hxa : x ≠ a := by omega
    rw [h1, h2, if_neg hxa]

theorem UFOk_ufUnion {n : ℕ} {l : List ℕ} (h : UFOk n l) {a b : ℕ}
    (ha : a ∈ l) (hb : b ∈ l) (hab : a ≠ b) : UFOk n (ufUnion l a b) := by
  refine ⟨by rw [ufUnion_length]; exact h.1, ?_⟩
  intro x hx
  obtain ⟨y, hy, hyx⟩ := List.mem_map.mp hx
  have hxval : x = b ∨ (x = y ∧ y ≠ a) := by
    by_cases h0 : y = a
    · left; rw [← hyx, h0, if_pos rfl]
    · right; exact ⟨by rw [← hyx, if_neg h0], h0⟩
  have hxmem : x ∈ l := by
    rcases hxval with h0 | ⟨h0, _⟩
    · exact h0 ▸ hb
    · exact h0 ▸ hy
  have hxa : x ≠ a := by
    rcases hxval with h0 | ⟨h0, h1⟩
    · exact h0 ▸ hab.symm
    · exact h0 ▸ h1
  constructor
  · exact (h.2 x hxmem).1
  · show ufFind (ufUnion l a b) x = x
    rw [ufFind_ufUnion h ha x, ufFind_fix h hxmem, if_neg hxa]

theorem UFOk_ufStep {n : ℕ} {l : List ℕ} (h : UFOk n l) {e : ℕ × ℕ}
    (h1 : e.1 < n) (h2 : e.2 < n) : UFOk n (ufStep l e) := by
  unfold ufStep
  split
  · exact h
  · exact UFOk_ufUnion h (ufFind_mem h h1) (ufFind_mem h h2) (by assumption)

theorem ufFind_ufStep {n : ℕ} {l : List ℕ} (h : UFOk n l) {e : ℕ × ℕ}
    (h1 : e.1 < n) (h2 : e.2 < n) (x : ℕ) :
    ufFind (ufStep l e) x =
      if ufFind l x = ufFind l e.1 then ufFind l e.2 else ufFind l x := by
  unfold ufStep
  split
  · rename_i heq
    by_cases hx : ufFind l x = ufFind l e.1
    · rw [if_pos hx, hx, heq]
    · rw [if_neg hx]
  · exact ufFind_ufUnion h (ufFind_mem h h1) x

theorem ufFind_ufStep_mono {n : ℕ} {l : List ℕ} (h : UFOk n l) {e : ℕ × ℕ}
    (h1 : e.1 < n) (h2 : e.2 < n) {x y : ℕ}
    (hxy : ufFind l x = ufFind l y) :
    ufFind (ufStep l e) x = ufFind (ufStep l e) y := by
  rw [ufFind_ufStep h h1 h2, ufFind_ufStep h h1 h2, hxy]

theorem ufFind_ufStep_self {n : ℕ} {l : List ℕ} (h : UFOk n l) {e : ℕ × ℕ}
    (h1 : e.1 < n) (h2 : e.2 < n) :
    ufFind (ufStep l e) e.1 = ufFind (ufStep l e) e.2 := by
  rw [ufFind_ufStep h h1 h2, ufFind_ufStep h h1 h2, if_pos rfl]
  by_cases hx : ufFind l e.2 = ufFind l e.1
  · rw [if_pos hx, hx]
  · rw [if_neg hx]

theorem UFOk_foldl {n : ℕ} (es : List (ℕ × ℕ)) :
    ∀ l : List ℕ, UFOk n l → EdgesOk n es → UFOk n (es.foldl ufStep l) := by
  induction es with
  | nil => intro l h _; exact h
  | cons e es ih =>
    intro l h hes
    have he := hes e (List.mem_cons_self e es)
    exact ih (ufStep l e) (UFOk_ufStep h he.1 he.2)
      fun f hf => hes f (List.mem_cons_of_mem e hf)

theorem ufFind_foldl_mono {n : ℕ} (es : List (ℕ × ℕ)) :
    ∀ l : List ℕ, UFOk n l → EdgesOk n es →
      ∀ x y, ufFind l x = ufFind l y →
        ufFind (es.foldl ufStep l) x = ufFind (es.foldl ufStep l) y := by
  induction es with
  | nil => intro l _ _ x y hxy; exact hxy
  | cons e es ih =>
    intro l h hes x y hxy
    have he := hes e (List.mem_cons_self e es)
    exact ih (ufStep l e) (UFOk_ufStep h he.1 he.2)
      (fun f hf => hes f (List.mem_cons_of_mem e hf)) x y
      (ufFind_ufStep_mono h he.1 he.2 hxy)

theorem ufFind_foldl_of_mem {n : ℕ} (es : List (ℕ × ℕ)) :
    ∀ l : List ℕ, UFOk n l → EdgesOk n es →
      ∀ a b, (a, b) ∈ es →
        ufFind (es.foldl ufStep l) a = ufFind (es.foldl ufStep l) b := by
  induction es with
  | nil => intro l _ _ a b hab; exact absurd hab (List.not_mem_nil _)
  | cons e es ih =>
    intro l h hes a b hab
    have he := hes e (List.mem_cons_self e es)
    have hok : UFOk n (ufStep l e) := UFOk_ufStep h he.1 he.2
    have hes2 : EdgesOk n es := fun f hf => hes f (List.mem_cons_of_mem e hf)
    rcases List.mem_cons.mp hab with h0 | h0
    · subst h0
      exact ufFind_foldl_mono es (ufStep l (a, b)) hok hes2 a b
        (ufFind_ufStep_self h he.1 he.2)
    · exact ih (ufStep l e) hok hes2 a b h0

theorem ufFind_foldl_of_eqvGen {n : ℕ} {es : List (ℕ × ℕ)} {l : List ℕ}
    (h : UFOk n l) (hes : EdgesOk n es) {x y : ℕ}
    (hxy : Relation.EqvGen (pairRel es) x y) :
    ufFind (es.foldl ufStep l) x = ufFind (es.foldl ufStep l) y := by
  induction hxy with
  | rel a b hab =>
    rcases hab with h0 | h0
    · exact ufFind_foldl_of_mem es l h hes a b h0
    · exact (ufFind_foldl_of_mem es l h hes b a h0).symm
  | refl a => rfl
  | symm a b _ ih => exact ih.symm
  | trans a b c _ _ ih1 ih2 => exact ih1.trans ih2

theorem eqvGen_find_eq {l : List ℕ} {P : List (ℕ × ℕ)}
    (h : ∀ pq ∈ P, ufFind l pq.1 = ufFind l pq.2) {x y : ℕ}
    (hxy : Relation.EqvGen (pairRel P) x y) : ufFind l x = ufFind l y := by
  induction hxy with
  | rel a b hab =>
    rcases hab with h0 | h0
    · exact h (a, b) h0
    · exact (h (b, a) h0).symm
  | refl a => rfl
  | symm a b _ ih => exact ih.symm
  | trans a b c _ _ ih1 ih2 => exact ih1.trans ih2

theorem eqvGen_or_eq_elim {r : ℕ → ℕ → Prop} {x y : ℕ}
    (h : Relation.EqvGen (fun a b => a = b ∨ r a b) x y) :
    Relation.EqvGen r x y := by
  induction h with
  | rel a b hab =>
    rcases hab with hab | hab
    · exact hab ▸ Relation.EqvGen.refl a
    · exact Relation.EqvGen.rel a b hab
  | refl a => exact Relation.EqvGen.refl a
  | symm a b _ ih => exact Relation.EqvGen.symm a b ih
  | trans a b c _ _ ih1 ih2 => exact Relation.EqvGen.trans a b c ih1 ih2

theorem ufFind_foldl_sound {n : ℕ} (es : List (ℕ × ℕ)) :
    ∀ (l : List ℕ) (r : ℕ → ℕ → Prop), UFOk n l → EdgesOk n es →
      (∀ x y, ufFind l x = ufFind l y → Relation.EqvGen r x y) →
      ∀ x y, ufFind (es.foldl ufStep l) x = ufFind (es.foldl ufStep l) y →
        Relation.EqvGen (fun a b => r a b ∨ pairRel es a b) x y := by
  induction es with
  | nil =>
    intro l r _ _ hinv x y hxy
    exact Relation.EqvGen.mono (fun a b hab => Or.inl hab) (hinv x y hxy)
  | cons e es ih =>
    intro l r h hes hinv x y hxy
    have he := hes e (List.mem_cons_self e es)
    have hok : UFOk n (ufStep l e) := UFOk_ufStep h he.1 he.2
    have hes2 : EdgesOk n es := fun f hf => hes f (List.mem_cons_of_mem e hf)
    have hrel : Relation.EqvGen (fun a b => r a b ∨ pairRel [e] a b) e.1 e.2 :=
      Relation.EqvGen.rel e.1 e.2 (Or.inr (Or.inl (by simp [pairRel])))
    have hinv2 : ∀ x y, ufFind (ufStep l e) x = ufFind (ufStep l e) y →
        Relation.EqvGen (fun a b => r a b ∨ pairRel [e] a b) x y := by
      intro x y hfind
      have hlift : ∀ a b, Relation.EqvGen r a b →
          Relation.EqvGen (fun a b => r a b ∨ pairRel [e] a b) a b :=
        fun a b hab => Relation.EqvGen.mono (fun a b hab => Or.inl hab) hab
      rw [ufFind_ufStep h he.1 he.2, ufFind_ufStep h he.1 he.2] at hfind
      by_cases hx : ufFind l x = ufFind l e.1 <;>
        by_cases hy : ufFind l y = ufFind l e.1
      · exact hlift x y (hinv x y (hx.trans hy.symm))
      · rw [if_pos hx, if_neg hy] at hfind
        have e1 : Relation.EqvGen r x e.1 := hinv x e.1 (by rw [hx])
        have e2 : Relation.EqvGen r e.2 y := hinv e.2 y (by rw [← hfind])
        exact Relation.EqvGen.trans x e.2 y
          (Relation.EqvGen.trans x e.1 e.2 (hlift x e.1 e1) hrel)
          (hlift e.2 y e2)
      · rw [if_neg hx, if_pos hy] at hfind
        have e1 : Relation.EqvGen r x e.2 := hinv x e.2 (by rw [hfind])
        have e2 : Relation.EqvGen r e.1 y := hinv e.1 y (by rw [← hy])
        exact Relation.EqvGen.trans x e.1 y
          (Relation.EqvGen.trans x e.2 e.1 (hlift x e.2 e1)
            (Relation.EqvGen.symm e.1 e.2 hrel))
          (hlift e.1 y e2)
      · rw [if_neg hx, if_neg hy] at hfind
        exact hlift x y (hinv x y hfind)
    have hmain := ih (ufStep l e) _ hok hes2 hinv2 x y hxy
    refine Relation.EqvGen.mono ?_ hmain
    intro a b hab
    rcases hab with hab | hab
    · rcases hab with hab | hab
      · exact Or.inl hab
      · rcases hab with hab | hab
        · rw [List.mem_singleton] at hab
          exact Or.inr (Or.inl (hab ▸ List.mem_cons_self e es))
        · rw [List.mem_singleton] at hab
          exact Or.inr (Or.inr (hab ▸ List.mem_cons_self e es))
    · rcases hab with hab | hab
      · exact Or.inr (Or.inl (List.mem_cons_of_mem e hab))
      · exact Or.inr (Or.inr (List.mem_cons_of_mem e hab))

theorem toFinset_map_eq {f : ℕ → ℕ} (l : List ℕ) :
    (l.map f).toFinset = l.toFinset.image f := by
  induction l with
  | nil => simp
  | cons a l ih => simp [ih]

theorem dedup_length_ufUnion {n : ℕ} {l : List ℕ} (h : UFOk n l) {a b : ℕ}
    (ha : a ∈ l) (hb : b ∈ l) (hab : a ≠ b) :
    (ufUnion l a b).dedup.length + 1 = l.dedup.length := by
  rw [← List.card_toFinset, ← List.card_toFinset]
  have himg : (ufUnion l a b).toFinset = l.toFinset.erase a := by
    show (l.map fun x => if x = a then b else x).toFinset = l.toFinset.erase a
    rw [toFinset_map_eq]
    ext x
    simp only [Finset.mem_image, List.mem_toFinset, Finset.mem_erase]
    constructor
    · rintro ⟨y, hy, hyx⟩
      by_cases h0 : y = a
      · rw [h0, if_pos rfl] at hyx
        exact ⟨hyx ▸ hab.symm, hyx ▸ hb⟩
      · rw [if_neg h0] at hyx
        exact ⟨hyx ▸ h0, hyx ▸ hy⟩
    · rintro ⟨hxa, hxl⟩
      exact ⟨x, hxl, by rw [if_neg hxa]⟩
  rw [himg, Finset.card_erase_of_mem (List.mem_toFinset.mpr ha)]
  have hpos : 0 < l.toFinset.card :=
    Finset.card_pos.mpr ⟨a, List.mem_toFinset.mpr ha⟩
  omega

theorem dedup_length_eq_one {l : List ℕ} (hne : l ≠ [])
    (hall : ∀ x ∈ l, ∀ y ∈ l, x = y) : l.dedup.length = 1 := by
  rw [← List.card_toFinset]
  obtain ⟨c, hc⟩ := List.exists_mem_of_ne_nil l hne
  rw [Finset.card_eq_one]
  refine ⟨c, ?_⟩
  ext x
  simp only [List.mem_toFinset, Finset.mem_singleton]
  constructor
  · intro hx; exact hall x hx c hc
  · intro hx; exact hx ▸ hc

theorem dedup_length_one_all_eq {l : List ℕ} (h : l.dedup.length = 1) :
    ∀ x ∈ l, ∀ y ∈ l, x = y := by
  rw [← List.card_toFinset, Finset.card_eq_one] at h
  obtain ⟨c, hc⟩ := h
  intro x hx y hy
  have h1 : x ∈ l.toFinset := List.mem_toFinset.mpr hx
  have h2 : y ∈ l.toFinset := List.mem_toFinset.mpr hy
  rw [hc, Finset.mem_singleton] at h1 h2
  rw [h1, h2]

/-- The check of nx.is_connected agrees with mathematical connectivity:
the component count is 1 exactly when any two vertices are joined by a
chain of edges. -/
theorem numComponents_eq_one_iff {n : ℕ} {es : List (ℕ × ℕ)} (hn : 0 < n)
    (hes : EdgesOk n es) :
    numComponents n es = 1 ↔
      ∀ x, x < n → ∀ y, y < n → Relation.EqvGen (pairRel es) x y := by
  have hok : UFOk n (ufRun n es) := UFOk_foldl es (List.range n) (UFOk_range n) hes
  constructor
  · intro h1 x hx y hy
    rw [numComponents] at h1
    have hall := dedup_length_one_all_eq h1
    have heq : ufFind (ufRun n es) x = ufFind (ufRun n es) y :=
      hall _ (ufFind_mem hok hx) _ (ufFind_mem hok hy)
    have hsound := ufFind_foldl_sound es (List.range n) Eq (UFOk_range n) hes
      (fun a b hab => by
        rw [ufFind_range, ufFind_range] at hab
        exact hab ▸ Relation.EqvGen.refl a) x y heq
    exact eqvGen_or_eq_elim hsound
  · intro hcon
    rw [numComponents]
    apply dedup_length_eq_one
    · intro hnil
      have := hok.1
      rw [hnil] at this
      simp at this
      omega
    · intro x hx y hy
      obtain ⟨i, hi, hix⟩ := List.getElem_of_mem hx
      obtain ⟨j, hj, hjy⟩ := List.getElem_of_mem hy
      have hin : i < n := hok.1 ▸ hi
      have hjn : j < n := hok.1 ▸ hj
      have hfind := ufFind_foldl_of_eqvGen (UFOk_range n) hes
        (hcon i hin j hjn)
      rw [← hix, ← hjy, ← ufFind_of_lt hi, ← ufFind_of_lt hj]
      exact hfind

/-! ### Kruskal lemmas -/

theorem UFOk_ufStep2 {n : ℕ} {l : List ℕ} (h : UFOk n l) {a b : ℕ}
    (h1 : a < n) (h2 : b < n) : UFOk n (ufStep l (a, b)) :=
  UFOk_ufStep h h1 h2

theorem ufFind_ufStep_mono2 {n : ℕ} {l : List ℕ} (h : UFOk n l) {a b : ℕ}
    (h1 : a < n) (h2 : b < n) {x y : ℕ}
    (hxy : ufFind l x = ufFind l y) :
    ufFind (ufStep l (a, b)) x = ufFind (ufStep l (a, b)) y :=
  ufFind_ufStep_mono h h1 h2 hxy

theorem ufFind_ufStep_self2 {n : ℕ} {l : List ℕ} (h : UFOk n l) {a b : ℕ}
    (h1 : a < n) (h2 : b < n) :
    ufFind (ufStep l (a, b)) a = ufFind (ufStep l (a, b)) b :=
  ufFind_ufStep_self h h1 h2

theorem foldl_map_toPair (es : List IEdge) (l : List ℕ) :
    (es.map toPair).foldl ufStep l =
      es.foldl (fun acc f => ufStep acc (f.u, f.v)) l := by
  rw [List.foldl_map]
  rfl

theorem kruskalGo_sublist (es : List IEdge) :
    ∀ l : List ℕ, (kruskalGo l es).Sublist es := by
  induction es with
  | nil => intro l; simp [kruskalGo]
  | cons e es ih =>
    intro l
    rw [kruskalGo]
    split
    · exact (ih l).cons e
    · exact (ih (ufStep l (e.u, e.v))).cons₂ e

theorem kruskalGo_append (p q : List IEdge) :
    ∀ l : List ℕ, kruskalGo l (p ++ q) =
      kruskalGo l p ++
        kruskalGo (p.foldl (fun acc f => ufStep acc (f.u, f.v)) l) q := by
  induction p with
  | nil => intro l; simp [kruskalGo]
  | cons e p ih =>
    intro l
    rw [List.cons_append, List.foldl_cons]
    by_cases hfind : ufFind l e.u = ufFind l e.v
    · have hstep : ufStep l (e.u, e.v) = l := by
        unfold ufStep; exact if_pos hfind
      rw [kruskalGo, if_pos hfind, kruskalGo, if_pos hfind, hstep]
      exact ih l
    · rw [kruskalGo, if_neg hfind, kruskalGo, if_neg hfind, ih (ufStep l (e.u, e.v)),
        List.cons_append]

theorem kruskalGo_count {n : ℕ} (es : List IEdge) :
    ∀ l : List ℕ, UFOk n l → (∀ e ∈ es, e.u < n ∧ e.v < n) →
      (kruskalGo l es).length +
        (es.foldl (fun acc f => ufStep acc (f.u, f.v)) l).dedup.length
        = l.dedup.length := by
  induction es with
  | nil => intro l _ _; simp [kruskalGo]
  | cons e es ih =>
    intro l h hes
    have he := hes e (List.mem_cons_self e es)
    have hes2 : ∀ f ∈ es, f.u < n ∧ f.v < n :=
      fun f hf => hes f (List.mem_cons_of_mem e hf)
    rw [List.foldl_cons]
    by_cases hfind : ufFind l e.u = ufFind l e.v
    · have hstep : ufStep l (e.u, e.v) = l := by
        unfold ufStep; exact if_pos hfind
      rw [kruskalGo, if_pos hfind, hstep]
      exact ih l h hes2
    · rw [kruskalGo, if_neg hfind, List.length_cons]
      have hok : UFOk n (ufStep l (e.u, e.v)) := UFOk_ufStep2 h he.1 he.2
      have hih := ih (ufStep l (e.u, e.v)) hok hes2
      have hdec : (ufStep l (e.u, e.v)).dedup.length + 1 = l.dedup.length := by
        have hstep : ufStep l (e.u, e.v) =
            ufUnion l (ufFind l e.u) (ufFind l e.v) := by
          unfold ufStep; exact if_neg hfind
        rw [hstep]
        exact dedup_length_ufUnion h (ufFind_mem h he.1) (ufFind_mem h he.2) hfind
      omega

/-- When Kruskal skips an edge e of a weight-sorted list, its endpoints
were already joined: either they were merged in the starting labelling
(accounted by the relation r) or they are joined through selected edges
of weight at most that of e. -/
theorem kruskalGo_skip_reach {n : ℕ} (es : List IEdge) :
    ∀ (l : List ℕ) (r : ℕ → ℕ → Prop), UFOk n l →
      (∀ e ∈ es, e.u < n ∧ e.v < n) →
      List.Pairwise (fun a b : IEdge => a.w ≤ b.w) es →
      (∀ x y, ufFind l x = ufFind l y → Relation.EqvGen r x y) →
      ∀ e ∈ es, e ∉ kruskalGo l es →
        Relation.EqvGen (fun a b => r a b ∨ ∃ f ∈ kruskalGo l es,
          f.w ≤ e.w ∧ ((a = f.u ∧ b = f.v) ∨ (a = f.v ∧ b = f.u))) e.u e.v := by
  induction es with
  | nil => intro l r _ _ _ _ e he; exact absurd he (List.not_mem_nil e)
  | cons g es ih =>
    intro l r h hes hsort hinv e he hnotin
    have hg := hes g (List.mem_cons_self g es)
    have hes2 : ∀ f ∈ es, f.u < n ∧ f.v < n :=
      fun f hf => hes f (List.mem_cons_of_mem g hf)
    have hgle := (List.pairwise_cons.mp hsort).1
    have hsort2 := (List.pairwise_cons.mp hsort).2
    by_cases hfind : ufFind l g.u = ufFind l g.v
    · rw [kruskalGo, if_pos hfind] at hnotin ⊢
      rcases List.mem_cons.mp he with h0 | h0
      · subst h0
        exact Relation.EqvGen.mono (fun a b hab => Or.inl hab)
          (hinv e.u e.v hfind)
      · exact ih l r h hes2 hsort2 hinv e h0 hnotin
    · rw [kruskalGo, if_neg hfind] at hnotin ⊢
      rcases List.mem_cons.mp he with h0 | h0
      · exact absurd (by rw [h0]; exact List.mem_cons_self g _) hnotin
      · have hnotin2 : e ∉ kruskalGo (ufStep l (g.u, g.v)) es :=
          fun hc => hnotin (List.mem_cons_of_mem g hc)
        have hok : UFOk n (ufStep l (g.u, g.v)) := UFOk_ufStep2 h hg.1 hg.2
        have hinv2 : ∀ x y,
            ufFind (ufStep l (g.u, g.v)) x = ufFind (ufStep l (g.u, g.v)) y →
            Relation.EqvGen (fun a b => r a b ∨
              ((a = g.u ∧ b = g.v) ∨ (a = g.v ∧ b = g.u))) x y := by
          intro x y hfxy
          have hlift : ∀ a b, Relation.EqvGen r a b →
              Relation.EqvGen (fun a b => r a b ∨
                ((a = g.u ∧ b = g.v) ∨ (a = g.v ∧ b = g.u))) a b :=
            fun a b hab => Relation.EqvGen.mono (fun a b hab => Or.inl hab) hab
          have hgrel : Relation.EqvGen (fun a b => r a b ∨
              ((a = g.u ∧ b = g.v) ∨ (a = g.v ∧ b = g.u))) g.u g.v :=
            Relation.EqvGen.rel _ _ (Or.inr (Or.inl ⟨rfl, rfl⟩))
          rw [ufFind_ufStep h hg.1 hg.2, ufFind_ufStep h hg.1 hg.2] at hfxy
          by_cases hx : ufFind l x = ufFind l g.u <;>
            by_cases hy : ufFind l y = ufFind l g.u
          · exact hlift x y (hinv x y (hx.trans hy.symm))
          · rw [if_pos hx, if_neg hy] at hfxy
            exact Relation.EqvGen.trans x g.v y
              (Relation.EqvGen.trans x g.u g.v
                (hlift _ _ (hinv x g.u (by rw [hx]))) hgrel)
              (hlift _ _ (hinv g.v y (by rw [← hfxy])))
          · rw [if_neg hx, if_pos hy] at hfxy
            exact Relation.EqvGen.trans x g.u y
              (Relation.EqvGen.trans x g.v g.u
                (hlift _ _ (hinv x g.v (by rw [hfxy])))
                (Relation.EqvGen.symm _ _ hgrel))
              (hlift _ _ (hinv g.u y (by rw [← hy])))
          · rw [if_neg hx, if_neg hy] at hfxy
            exact hlift x y (hinv x y hfxy)
        have hmain := ih (ufStep l (g.u, g.v)) _ hok hes2 hsort2 hinv2 e h0 hnotin2
        refine Relation.EqvGen.mono ?_ hmain
        intro a b hab
        rcases hab with hab | hab
        · rcases hab with hab | hab
          · exact Or.inl hab
          · exact Or.inr ⟨g, List.mem_cons_self g _, hgle e h0, hab⟩
        · obtain ⟨f, hf, hw, hm⟩ := hab
          exact Or.inr ⟨f, List.mem_cons_of_mem g hf, hw, hm⟩

/-- When Kruskal selects an edge e of a weight-sorted list, the
endpoints of e cannot be joined by pairs that are each either merged in
the starting labelling or given by a strictly lighter edge of the
list. -/
theorem kruskalGo_sel_not_reach {n : ℕ} (es : List IEdge) :
    ∀ l : List ℕ, UFOk n l → (∀ e ∈ es, e.u < n ∧ e.v < n) →
      List.Pairwise (fun a b : IEdge => a.w ≤ b.w) es →
      ∀ e ∈ kruskalGo l es, ∀ P : List (ℕ × ℕ),
        (∀ pq ∈ P, ufFind l pq.1 = ufFind l pq.2 ∨
          ∃ f ∈ es, f.w < e.w ∧ (f.u, f.v) = pq) →
        Relation.EqvGen (pairRel P) e.u e.v → False := by
  induction es with
  | nil =>
    intro l _ _ _ e hsel
    rw [kruskalGo] at hsel
    exact absurd hsel (List.not_mem_nil e)
  | cons g es ih =>
    intro l h hes hsort e hsel P hP hreach
    have hg := hes g (List.mem_cons_self g es)
    have hes2 : ∀ f ∈ es, f.u < n ∧ f.v < n :=
      fun f hf => hes f (List.mem_cons_of_mem g hf)
    have hgle := (List.pairwise_cons.mp hsort).1
    have hsort2 := (List.pairwise_cons.mp hsort).2
    by_cases hfind : ufFind l g.u = ufFind l g.v
    · rw [kruskalGo, if_pos hfind] at hsel
      refine ih l h hes2 hsort2 e hsel P ?_ hreach
      intro pq hpq
      rcases hP pq hpq with h0 | ⟨f, hf, hw, hfx⟩
      · exact Or.inl h0
      · rcases List.mem_cons.mp hf with h1 | h1
        · subst h1
          left
          rw [← hfx]
          simpa using hfind
        · exact Or.inr ⟨f, h1, hw, hfx⟩
    · rw [kruskalGo, if_neg hfind] at hsel
      rcases List.mem_cons.mp hsel with h0 | h0
      · subst h0
        have hPmerged : ∀ pq ∈ P, ufFind l pq.1 = ufFind l pq.2 := by
          intro pq hpq
          rcases hP pq hpq with h1 | ⟨f, hf, hw, hfx⟩
          · exact h1
          · rcases List.mem_cons.mp hf with h2 | h2
            · rw [h2] at hw
              exact absurd hw (lt_irrefl _)
            · exact absurd hw (not_lt.mpr (hgle f h2))
        exact hfind (eqvGen_find_eq hPmerged hreach)
      · have hok : UFOk n (ufStep l (g.u, g.v)) := UFOk_ufStep2 h hg.1 hg.2
        refine ih (ufStep l (g.u, g.v)) hok hes2 hsort2 e h0 P ?_ hreach
        intro pq hpq
        rcases hP pq hpq with h1 | ⟨f, hf, hw, hfx⟩
        · exact Or.inl (ufFind_ufStep_mono2 h hg.1 hg.2 h1)
        · rcases List.mem_cons.mp hf with h2 | h2
          · left
            rw [← hfx, h2]
            simpa using ufFind_ufStep_self2 h hg.1 hg.2
          · exact Or.inr ⟨f, h2, hw, hfx⟩

/-! ### Graph construction lemmas -/

theorem mem_foldl_addNode (l : List String) :
    ∀ (acc : List String) (x : String),
      x ∈ l.foldl addNode acc ↔ x ∈ acc ∨ x ∈ l := by
  induction l with
  | nil => intro acc x; simp
  | cons a l ih =>
    intro acc x
    rw [List.foldl_cons, ih]
    unfold addNode
    by_cases h : a ∈ acc
    · rw [if_pos h]
      constructor
      · rintro (h1 | h1)
        · exact Or.inl h1
        · exact Or.inr (List.mem_cons_of_mem a h1)
      · rintro (h1 | h1)
        · exact Or.inl h1
        · rcases List.mem_cons.mp h1 with h2 | h2
          · exact Or.inl (h2 ▸ h)
          · exact Or.inr h2
    · rw [if_neg h]
      constructor
      · rintro (h1 | h1)
        · rcases List.mem_append.mp h1 with h2 | h2
          · exact Or.inl h2
          · rw [List.mem_singleton] at h2
            exact Or.inr (List.mem_cons.mpr (Or.inl h2))
        · exact Or.inr (List.mem_cons_of_mem a h1)
      · rintro (h1 | h1)
        · exact Or.inl (List.mem_append_left _ h1)
        · rcases List.mem_cons.mp h1 with h2 | h2
          · exact Or.inl (List.mem_append_right _ (List.mem_singleton.mpr h2))
          · exact Or.inr h2

theorem nodup_foldl_addNode (l : List String) :
    ∀ acc : List String, acc.Nodup → (l.foldl addNode acc).Nodup := by
  induction l with
  | nil => intro acc h; exact h
  | cons a l ih =>
    intro acc h
    rw [List.foldl_cons]
    apply ih
    unfold addNode
    split
    · exact h
    · rename_i hna
      rw [List.nodup_append]
      refine ⟨h, List.nodup_singleton a, ?_⟩
      intro x hx hxa
      rw [List.mem_singleton] at hxa
      exact hna (hxa ▸ hx)

theorem foldl_addNode_absorb (l : List String) :
    ∀ acc : List String, (∀ x ∈ l, x ∈ acc) → l.foldl addNode acc = acc := by
  induction l with
  | nil => intro acc _; rfl
  | cons a l ih =>
    intro acc h
    rw [List.foldl_cons]
    have ha : a ∈ acc := h a (List.mem_cons_self a l)
    rw [addNode, if_pos ha]
    exact ih acc fun x hx => h x (List.mem_cons_of_mem a hx)

theorem foldl_addNode_fresh (l : List String) :
    ∀ acc : List String, (∀ x ∈ l, x ∉ acc) → l.Nodup →
      l.foldl addNode acc = acc ++ l := by
  induction l with
  | nil => intro acc _ _; simp
  | cons a l ih =>
    intro acc hfresh hnd
    rw [List.foldl_cons]
    have ha : a ∉ acc := hfresh a (List.mem_cons_self a l)
    rw [addNode, if_neg ha]
    rw [ih (acc ++ [a]) ?_ (List.nodup_cons.mp hnd).2]
    · simp
    · intro x hx
      rw [List.mem_append, List.mem_singleton]
      rintro (h1 | h1)
      · exact hfresh x (List.mem_cons_of_mem a hx) h1
      · exact (List.nodup_cons.mp hnd).1 (h1 ▸ hx)

theorem graphNodes_nodup (nodes : List String) (branches : List Branch) :
    (graphNodes nodes branches).Nodup :=
  nodup_foldl_addNode _ [] List.nodup_nil

theorem mem_graphNodes_of_endpoint (nodes : List String)
    {branches : List Branch} {b : Branch} (hb : b ∈ branches) :
    b.fromN ∈ graphNodes nodes branches ∧
      b.toN ∈ graphNodes nodes branches := by
  unfold graphNodes
  rw [mem_foldl_addNode, mem_foldl_addNode]
  constructor
  · refine Or.inr (List.mem_append_right _ ?_)
    rw [List.mem_flatten]
    exact ⟨[b.fromN, b.toN], List.mem_map.mpr ⟨b, hb, rfl⟩,
      List.mem_cons_self _ _⟩
  · refine Or.inr (List.mem_append_right _ ?_)
    rw [List.mem_flatten]
    exact ⟨[b.fromN, b.toN], List.mem_map.mpr ⟨b, hb, rfl⟩,
      List.mem_cons_of_mem _ (List.mem_singleton.mpr rfl)⟩

/-- For a valid circuit (declared nodes without duplicates and every
endpoint declared), the multigraph node list is exactly the declared
node list. -/
theorem graphNodes_eq {nodes : List String} {branches : List Branch}
    (hnd : nodes.Nodup)
    (hep : ∀ b ∈ branches, b.fromN ∈ nodes ∧ b.toN ∈ nodes) :
    graphNodes nodes branches = nodes := by
  unfold graphNodes
  rw [List.foldl_append, foldl_addNode_fresh nodes [] (by simp) hnd,
    List.nil_append]
  apply foldl_addNode_absorb
  intro x hx
  rw [List.mem_flatten] at hx
  obtain ⟨s, hs, hxs⟩ := hx
  obtain ⟨b, hb, hbs⟩ := List.mem_map.mp hs
  rw [← hbs, List.mem_cons, List.mem_singleton] at hxs
  rcases hxs with h1 | h1
  · exact h1 ▸ (hep b hb).1
  · exact h1 ▸ (hep b hb).2

theorem idxOf_lt {ns : List String} {x : String} (h : x ∈ ns) :
    idxOf ns x < ns.length :=
  List.indexOf_lt_length.mpr h

theorem edgesOk_idxPairs (nodes : List String) (branches : List Branch) :
    EdgesOk (graphNodes nodes branches).length
      (idxPairs (graphNodes nodes branches) branches) := by
  intro e he
  obtain ⟨b, hb, hbe⟩ := List.mem_map.mp he
  have hm := mem_graphNodes_of_endpoint nodes hb
  rw [← hbe]
  exact ⟨idxOf_lt hm.1, idxOf_lt hm.2⟩

/-! ### Counting filters by a key list -/

theorem map_filter_mem {α : Type} (f : α → String) (bs : List α)
    (ids : List String) :
    (bs.filter fun b => decide (f b ∈ ids)).map f =
      (bs.map f).filter fun x => decide (x ∈ ids) := by
  induction bs with
  | nil => rfl
  | cons a bs ih =>
    simp only [List.map_cons, List.filter_cons]
    by_cases h : f a ∈ ids
    · simp [h, ih]
    · simp [h, ih]

theorem length_filter_mem {α : Type} (f : α → String) (bs : List α)
    (ids : List String) (h1 : (bs.map f).Nodup) (h2 : ids.Nodup)
    (h3 : ∀ i ∈ ids, i ∈ bs.map f) :
    (bs.filter fun b => decide (f b ∈ ids)).length = ids.length := by
  have hlen : (bs.filter fun b => decide (f b ∈ ids)).length =
      ((bs.map f).filter fun x => decide (x ∈ ids)).length := by
    rw [← map_filter_mem, List.length_map]
  rw [hlen]
  have hnd : ((bs.map f).filter fun x => decide (x ∈ ids)).Nodup :=
    h1.filter _
  rw [← List.toFinset_card_of_nodup hnd, ← List.toFinset_card_of_nodup h2]
  congr 1
  rw [List.toFinset_filter]
  ext x
  simp only [Finset.mem_filter, List.mem_toFinset, decide_eq_true_eq]
  constructor
  · rintro ⟨_, hx⟩; exact hx
  · intro hx; exact ⟨h3 x hx, hx⟩

theorem length_filter_add {α : Type} (p : α → Prop) [DecidablePred p]
    (bs : List α) :
    (bs.filter fun b => decide (p b)).length +
      (bs.filter fun b => decide (¬ p b)).length = bs.length := by
  induction bs with
  | nil => rfl
  | cons a bs ih =>
    rw [List.filter_cons, List.filter_cons]
    by_cases h : p a
    · rw [if_pos (by simpa using h), if_neg (by simpa using h)]
      simp only [List.length_cons]
      omega
    · rw [if_neg (by simpa using h), if_pos (by simpa using h)]
      simp only [List.length_cons]
      omega

/-! ### The tree-selection pipeline on a circuit graph -/

theorem graphIEdges_circuit (cd : CircuitData) :
    graphIEdges (weightedGraph (circuitGraph cd)) =
      cd.branches.map (brEdge (graphNodes cd.nodes cd.branches)) := by
  simp only [graphIEdges, weightedGraph, circuitGraph, List.map_map]
  rfl

theorem idxPairs_eq_map_toPair (ns : List String) (bs : List Branch) :
    idxPairs ns bs = (bs.map (brEdge ns)).map toPair := by
  simp only [idxPairs, List.map_map]
  rfl

theorem key_brEdge_map (ns : List String) (bs : List Branch) :
    (bs.map (brEdge ns)).map IEdge.key = bs.map Branch.id := by
  simp only [List.map_map]
  rfl

theorem sortedIEdges_perm (cd : CircuitData) :
    (sortedIEdges (circuitGraph cd)).Perm
      (cd.branches.map (brEdge (graphNodes cd.nodes cd.branches))) := by
  rw [sortedIEdges, graphIEdges_circuit]
  exact List.mergeSort_perm _ _

theorem sortedIEdges_pairwise (cd : CircuitData) :
    List.Pairwise (fun a b : IEdge => a.w ≤ b.w)
      (sortedIEdges (circuitGraph cd)) := by
  rw [sortedIEdges]
  refine (List.sorted_mergeSort ?_ ?_ _).imp ?_
  · intro a b c h1 h2
    simp only [decide_eq_true_eq] at h1 h2 ⊢
    omega
  · intro a b
    rcases Nat.le_total a.w b.w with h | h
    · simp [h]
    · simp [h]
  · intro a b hab
    simpa using hab

theorem sortedIEdges_bounds (cd : CircuitData) :
    ∀ e ∈ sortedIEdges (circuitGraph cd),
      e.u < (graphNodes cd.nodes cd.branches).length ∧
        e.v < (graphNodes cd.nodes cd.branches).length := by
  intro e he
  have hm : e ∈ cd.branches.map (brEdge (graphNodes cd.nodes cd.branches)) :=
    (sortedIEdges_perm cd).mem_iff.mp he
  obtain ⟨b, hb, hbe⟩ := List.mem_map.mp hm
  have hmem := mem_graphNodes_of_endpoint cd.nodes hb
  rw [← hbe]
  exact ⟨idxOf_lt hmem.1, idxOf_lt hmem.2⟩

theorem mem_sortedIEdges (cd : CircuitData) {b : Branch}
    (hb : b ∈ cd.branches) :
    brEdge (graphNodes cd.nodes cd.branches) b ∈
      sortedIEdges (circuitGraph cd) :=
  (sortedIEdges_perm cd).mem_iff.mpr (List.mem_map.mpr ⟨b, hb, rfl⟩)

theorem sortedIEdges_mem_inv (cd : CircuitData) {e : IEdge}
    (he : e ∈ sortedIEdges (circuitGraph cd)) :
    ∃ b ∈ cd.branches, brEdge (graphNodes cd.nodes cd.branches) b = e := by
  have hm := (sortedIEdges_perm cd).mem_iff.mp he
  obtain ⟨b, hb, hbe⟩ := List.mem_map.mp hm
  exact ⟨b, hb, hbe⟩

theorem treeIds_nodup (cd : CircuitData)
    (hids : (cd.branches.map Branch.id).Nodup) :
    (treeIds (circuitGraph cd)).Nodup := by
  have hkeys : ((sortedIEdges (circuitGraph cd)).map IEdge.key).Nodup := by
    refine ((sortedIEdges_perm cd).map IEdge.key).nodup_iff.mpr ?_
    rw [key_brEdge_map]
    exact hids
  exact ((kruskalGo_sublist _ _).map IEdge.key).nodup hkeys

theorem treeIds_subset (cd : CircuitData) :
    ∀ i ∈ treeIds (circuitGraph cd), i ∈ cd.branches.map Branch.id := by
  intro i hi
  have h1 : i ∈ (sortedIEdges (circuitGraph cd)).map IEdge.key :=
    ((kruskalGo_sublist _ _).map IEdge.key).subset hi
  have h2 := ((sortedIEdges_perm cd).map IEdge.key).mem_iff.mp h1
  rw [key_brEdge_map] at h2
  exact h2

theorem selectedEdges_length (cd : CircuitData) (hconn : ConnectedData cd)
    (hn0 : 0 < (graphNodes cd.nodes cd.branches).length) :
    (selectedEdges (circuitGraph cd)).length + 1 =
      (graphNodes cd.nodes cd.branches).length := by
  have hbounds := sortedIEdges_bounds cd
  have hcount := kruskalGo_count (sortedIEdges (circuitGraph cd))
    (List.range (graphNodes cd.nodes cd.branches).length)
    (UFOk_range _) hbounds
  have hEdgesOk : EdgesOk (graphNodes cd.nodes cd.branches).length
      ((sortedIEdges (circuitGraph cd)).map toPair) := by
    intro pq hpq
    obtain ⟨e, he, hpe⟩ := List.mem_map.mp hpq
    rw [← hpe]
    exact hbounds e he
  have hfold := foldl_map_toPair (sortedIEdges (circuitGraph cd))
    (List.range (graphNodes cd.nodes cd.branches).length)
  have hok : UFOk (graphNodes cd.nodes cd.branches).length
      ((sortedIEdges (circuitGraph cd)).foldl
        (fun acc f => ufStep acc (f.u, f.v))
        (List.range (graphNodes cd.nodes cd.branches).length)) := by
    rw [← hfold]
    exact UFOk_foldl _ _ (UFOk_range _) hEdgesOk
  have hone : ((sortedIEdges (circuitGraph cd)).foldl
      (fun acc f => ufStep acc (f.u, f.v))
      (List.range (graphNodes cd.nodes cd.branches).length)).dedup.length
      = 1 := by
    apply dedup_length_eq_one
    · intro hnil
      have hl := hok.1
      rw [hnil] at hl
      simp at hl
      omega
    · intro x hx y hy
      obtain ⟨i, hi, hix⟩ := List.getElem_of_mem hx
      obtain ⟨j, hj, hjy⟩ := List.getElem_of_mem hy
      have hin : i < (graphNodes cd.nodes cd.branches).length := hok.1 ▸ hi
      have hjn : j < (graphNodes cd.nodes cd.branches).length := hok.1 ▸ hj
      have hpp : ∀ a b,
          pairRel (idxPairs (graphNodes cd.nodes cd.branches) cd.branches) a b →
          pairRel ((sortedIEdges (circuitGraph cd)).map toPair) a b := by
        have hperm : (idxPairs (graphNodes cd.nodes cd.branches)
            cd.branches).Perm ((sortedIEdges (circuitGraph cd)).map toPair) := by
          rw [idxPairs_eq_map_toPair]
          exact ((sortedIEdges_perm cd).map toPair).symm
        intro a b hab
        rcases hab with h0 | h0
        · exact Or.inl (hperm.mem_iff.mp h0)
        · exact Or.inr (hperm.mem_iff.mp h0)
      have hgen := Relation.EqvGen.mono hpp (hconn i hin j hjn)
      have hfind := ufFind_foldl_of_eqvGen (UFOk_range _) hEdgesOk hgen
      rw [hfold] at hfind
      rw [← hix, ← hjy, ← ufFind_of_lt hi, ← ufFind_of_lt hj]
      exact hfind
  rw [hone] at hcount
  rw [(List.nodup_range _).dedup, List.length_range] at hcount
  exact hcount

/-! ### Claim C3 -/

/-- C3: for every connected circuit (valid input: distinct declared
nodes, distinct branch ids, declared endpoints), select_tree returns a
partition with |twigs| = |nodes| - 1 and |links| = |branches| - |nodes|
+ 1, no branch in both lists, and the returned ordering is twigs then
links. -/
theorem c3_tree_partition (cd : CircuitData)
    (hn0 : 0 < cd.nodes.length)
    (hnd : cd.nodes.Nodup)
    (hids : (cd.branches.map Branch.id).Nodup)
    (hep : ∀ b ∈ cd.branches, b.fromN ∈ cd.nodes ∧ b.toN ∈ cd.nodes)
    (hconn : ConnectedData cd) :
    ((selectTree (circuitGraph cd) cd.branches).2.1).length =
        cd.nodes.length - 1 ∧
      ((selectTree (circuitGraph cd) cd.branches).2.2.1).length =
        cd.branches.length - (cd.nodes.length - 1) ∧
      (∀ b, b ∈ (selectTree (circuitGraph cd) cd.branches).2.1 →
        b ∉ (selectTree (circuitGraph cd) cd.branches).2.2.1) ∧
      (selectTree (circuitGraph cd) cd.branches).2.2.2 =
        (selectTree (circuitGraph cd) cd.branches).2.1 ++
          (selectTree (circuitGraph cd) cd.branches).2.2.1 := by
  have hg : graphNodes cd.nodes cd.branches = cd.nodes := graphNodes_eq hnd hep
  have hsel := selectedEdges_length cd hconn (by rw [hg]; exact hn0)
  rw [hg] at hsel
  have hids_len : (treeIds (circuitGraph cd)).length =
      (selectedEdges (circuitGraph cd)).length := List.length_map _ _
  have htwigs : ((selectTree (circuitGraph cd) cd.branches).2.1).length =
      (treeIds (circuitGraph cd)).length :=
    length_filter_mem Branch.id cd.branches (treeIds (circuitGraph cd))
      hids (treeIds_nodup cd hids) (treeIds_subset cd)
  have hsum : ((selectTree (circuitGraph cd) cd.branches).2.1).length +
      ((selectTree (circuitGraph cd) cd.branches).2.2.1).length =
      cd.branches.length :=
    length_filter_add (fun b : Branch => b.id ∈ treeIds (circuitGraph cd))
      cd.branches
  refine ⟨?_, ?_, ?_, rfl⟩
  · rw [htwigs, hids_len]; omega
  · rw [htwigs, hids_len] at hsum; omega
  · intro b hb1 hb2
    have h1 := (List.mem_filter.mp hb1).2
    have h2 := (List.mem_filter.mp hb2).2
    rw [decide_eq_true_eq] at h1 h2
    exact h2 h1

/-- Witness for C3: the series RLC scenario satisfies every hypothesis
and the conclusion follows by applying the theorem. -/
theorem c3_tree_partition_witness :
    (0 < rlcData.nodes.length ∧ rlcData.nodes.Nodup ∧
      (rlcData.branches.map Branch.id).Nodup ∧
      (∀ b ∈ rlcData.branches,
        b.fromN ∈ rlcData.nodes ∧ b.toN ∈ rlcData.nodes) ∧
      ConnectedData rlcData) ∧
    ((selectTree (circuitGraph rlcData) rlcData.branches).2.1).length =
        rlcData.nodes.length - 1 ∧
      ((selectTree (circuitGraph rlcData) rlcData.branches).2.2.1).length =
        rlcData.branches.length - (rlcData.nodes.length - 1) ∧
      (∀ b, b ∈ (selectTree (circuitGraph rlcData) rlcData.branches).2.1 →
        b ∉ (selectTree (circuitGraph rlcData) rlcData.branches).2.2.1) ∧
      (selectTree (circuitGraph rlcData) rlcData.branches).2.2.2 =
        (selectTree (circuitGraph rlcData) rlcData.branches).2.1 ++
          (selectTree (circuitGraph rlcData) rlcData.branches).2.2.1 := by
  have hconn : ConnectedData rlcData := by
    intro x hx y hy
    exact (numComponents_eq_one_iff (by decide)
      (edgesOk_idxPairs rlcData.nodes rlcData.branches)).mp (by decide) x hx y hy
  refine ⟨⟨by decide, by decide, by decide, by decide, hconn⟩, ?_⟩
  exact c3_tree_partition rlcData (by decide) (by decide) (by decide)
    (by decide) hconn

/-! ### Claim C7 -/

theorem weightOf_eq_zero {t : String} : weightOf t = 0 ↔ t = "V" := by
  unfold weightOf
  by_cases h : t = "V"
  · simp [h]
  · rw [if_neg h]
    by_cases h2 : t = "I" <;> simp [h2, h]

theorem weightOf_lt_100 {t : String} (h : t ≠ "I") : weightOf t < 100 := by
  unfold weightOf
  by_cases h1 : t = "V"
  · rw [if_pos h1]; omega
  · rw [if_neg h1, if_neg h]; omega

/-- C7: the weight bias of select_tree is respected.  A voltage-source
branch left out of the tree has its endpoints already connected by
voltage-source twigs alone (so including it cannot keep a valid tree);
a current-source branch taken as a twig has endpoints that no chain of
non-current-source branches of the whole circuit connects (so excluding
it cannot keep the result connected).  This is the exchange property
that makes the selected tree minimum-weight under V → 0, I → 100,
other → 1. -/
theorem c7_tree_bias (cd : CircuitData)
    (hids : (cd.branches.map Branch.id).Nodup) :
    (∀ b ∈ (selectTree (circuitGraph cd) cd.branches).2.2.1, b.ty = "V" →
      Relation.EqvGen
        (pairRel (idxPairs (graphNodes cd.nodes cd.branches)
          (((selectTree (circuitGraph cd) cd.branches).2.1).filter
            fun c => c.ty = "V")))
        (idxOf (graphNodes cd.nodes cd.branches) b.fromN)
        (idxOf (graphNodes cd.nodes cd.branches) b.toN)) ∧
    (∀ b ∈ (selectTree (circuitGraph cd) cd.branches).2.1, b.ty = "I" →
      ¬ Relation.EqvGen
        (pairRel (idxPairs (graphNodes cd.nodes cd.branches)
          (cd.branches.filter fun c => ¬ c.ty = "I")))
        (idxOf (graphNodes cd.nodes cd.branches) b.fromN)
        (idxOf (graphNodes cd.nodes cd.branches) b.toN)) := by
  constructor
  · -- excluded voltage sources
    intro b hb hty
    have hbmem : b ∈ cd.branches := (List.mem_filter.mp hb).1
    have hnotid : b.id ∉ treeIds (circuitGraph cd) := by
      have h0 := (List.mem_filter.mp hb).2
      rw [decide_eq_true_eq] at h0
      exact h0
    have he : brEdge (graphNodes cd.nodes cd.branches) b ∈
        sortedIEdges (circuitGraph cd) := mem_sortedIEdges cd hbmem
    have hnotsel : brEdge (graphNodes cd.nodes cd.branches) b ∉
        selectedEdges (circuitGraph cd) := by
      intro hc
      exact hnotid (List.mem_map.mpr ⟨_, hc, rfl⟩)
    have hreach := kruskalGo_skip_reach (sortedIEdges (circuitGraph cd))
      (List.range (graphNodes cd.nodes cd.branches).length) Eq
      (UFOk_range _) (sortedIEdges_bounds cd) (sortedIEdges_pairwise cd)
      (fun x y hxy => by
        rw [ufFind_range, ufFind_range] at hxy
        exact hxy ▸ Relation.EqvGen.refl x)
      (brEdge (graphNodes cd.nodes cd.branches) b) he hnotsel
    refine eqvGen_or_eq_elim (Relation.EqvGen.mono ?_ hreach)
    intro a c hac
    rcases hac with hac | ⟨f, hf, hw, hm⟩
    · exact Or.inl hac
    · right
      have hfsel : f ∈ selectedEdges (circuitGraph cd) := hf
      have hfsorted : f ∈ sortedIEdges (circuitGraph cd) :=
        (kruskalGo_sublist _ _).subset hf
      obtain ⟨c2, hc2, hc2e⟩ := sortedIEdges_mem_inv cd hfsorted
      have hew : (brEdge (graphNodes cd.nodes cd.branches) b).w = 0 := by
        show weightOf b.ty = 0
        exact weightOf_eq_zero.mpr hty
      have hfw : weightOf c2.ty = 0 := by
        have h0 : f.w = 0 := by omega
        rw [← hc2e] at h0
        exact h0
      have hcty : c2.ty = "V" := weightOf_eq_zero.mp hfw
      have hc2twig : c2 ∈ ((selectTree (circuitGraph cd) cd.branches).2.1).filter
          fun c => c.ty = "V" := by
        rw [List.mem_filter]
        refine ⟨?_, by rw [decide_eq_true_eq]; exact hcty⟩
        show c2 ∈ cd.branches.filter fun c => c.id ∈ treeIds (circuitGraph cd)
        rw [List.mem_filter]
        refine ⟨hc2, ?_⟩
        rw [decide_eq_true_eq]
        have : c2.id = f.key := by rw [← hc2e]; rfl
        rw [this]
        exact List.mem_map.mpr ⟨f, hfsel, rfl⟩
      have hpairm : (f.u, f.v) ∈ idxPairs (graphNodes cd.nodes cd.branches)
          (((selectTree (circuitGraph cd) cd.branches).2.1).filter
            fun c => c.ty = "V") := by
        refine List.mem_map.mpr ⟨c2, hc2twig, ?_⟩
        rw [← hc2e]
        rfl
      rcases hm with ⟨ha1, hc1⟩ | ⟨ha1, hc1⟩
      · exact Or.inl (by rw [ha1, hc1]; exact hpairm)
      · exact Or.inr (by rw [ha1, hc1]; exact hpairm)
  · -- included current sources
    intro b hb hty hreach
    have hbmem : b ∈ cd.branches := (List.mem_filter.mp hb).1
    have hid : b.id ∈ treeIds (circuitGraph cd) := by
      have h0 := (List.mem_filter.mp hb).2
      rw [decide_eq_true_eq] at h0
      exact h0
    obtain ⟨f, hfsel, hfkey⟩ := List.mem_map.mp hid
    have hfsorted : f ∈ sortedIEdges (circuitGraph cd) :=
      (kruskalGo_sublist _ _).subset hfsel
    obtain ⟨c2, hc2, hc2e⟩ := sortedIEdges_mem_inv cd hfsorted
    have hcb : c2 = b := by
      apply List.inj_on_of_nodup_map hids hc2 hbmem
      rw [show c2.id = f.key by rw [← hc2e]; rfl]
      exact hfkey
    have hfe : f = brEdge (graphNodes cd.nodes cd.branches) b := by
      rw [← hc2e, hcb]
    refine kruskalGo_sel_not_reach (sortedIEdges (circuitGraph cd))
      (List.range (graphNodes cd.nodes cd.branches).length)
      (UFOk_range _) (sortedIEdges_bounds cd) (sortedIEdges_pairwise cd)
      f hfsel
      (idxPairs (graphNodes cd.nodes cd.branches)
        (cd.branches.filter fun c => ¬ c.ty = "I")) ?_ ?_
    · intro pq hpq
      obtain ⟨c3, hc3, hc3pq⟩ := List.mem_map.mp hpq
      have hc3mem : c3 ∈ cd.branches := (List.mem_filter.mp hc3).1
      have hc3ty : ¬ c3.ty = "I" := by
        have h0 := (List.mem_filter.mp hc3).2
        rw [decide_eq_true_eq] at h0
        exact h0
      refine Or.inr ⟨brEdge (graphNodes cd.nodes cd.branches) c3,
        mem_sortedIEdges cd hc3mem, ?_, ?_⟩
      · rw [hfe]
        show weightOf c3.ty < weightOf b.ty
        rw [hty]
        have h1 : weightOf "I" = 100 := by decide
        rw [h1]
        exact weightOf_lt_100 hc3ty
      · rw [← hc3pq]
        rfl
    · rw [hfe]
      exact hreach

/-- Witness for C7: the series RLC scenario, whose branch ids are
distinct. -/
theorem c7_tree_bias_witness :
    (rlcData.branches.map Branch.id).Nodup ∧
    ((∀ b ∈ (selectTree (circuitGraph rlcData) rlcData.branches).2.2.1,
        b.ty = "V" →
        Relation.EqvGen
          (pairRel (idxPairs (graphNodes rlcData.nodes rlcData.branches)
            (((selectTree (circuitGraph rlcData) rlcData.branches).2.1).filter
              fun c => c.ty = "V")))
          (idxOf (graphNodes rlcData.nodes rlcData.branches) b.fromN)
          (idxOf (graphNodes rlcData.nodes rlcData.branches) b.toN)) ∧
      (∀ b ∈ (selectTree (circuitGraph rlcData) rlcData.branches).2.1,
        b.ty = "I" →
        ¬ Relation.EqvGen
          (pairRel (idxPairs (graphNodes rlcData.nodes rlcData.branches)
            (rlcData.branches.filter fun c => ¬ c.ty = "I")))
          (idxOf (graphNodes rlcData.nodes rlcData.branches) b.fromN)
          (idxOf (graphNodes rlcData.nodes rlcData.branches) b.toN))) :=
  ⟨by decide, c7_tree_bias rlcData (by decide)⟩

/-! ### Claim C5 -/

/-- C5: on a disconnected circuit (with a nonempty node set; NetworkX
raises on the null graph), build_graph returns no graph together with
the error dictionary whose message states that a single reference node
0 is expected to connect every node, and solve_circuit stops right
there with that error, never reaching tree selection or matrix
construction. -/
theorem c5_unconnected_rejected (cd : CircuitData)
    (hn0 : 0 < (graphNodes cd.nodes cd.branches).length)
    (hnc : ¬ ConnectedData cd) :
    buildGraph cd = (none, some unconnectedErr) ∧
    unconnectedErr.message =
      "Circuit is not connected. All nodes must form a connected graph with node \x270\x27 as reference." ∧
    solveCore cd = Outcome.errDict unconnectedErr := by
  have hnum : ¬ numComponents (graphNodes cd.nodes cd.branches).length
      (idxPairs (graphNodes cd.nodes cd.branches) cd.branches) = 1 := by
    intro h1
    exact hnc ((numComponents_eq_one_iff hn0
      (edgesOk_idxPairs cd.nodes cd.branches)).mp h1)
  have hbg : buildGraph cd = (none, some unconnectedErr) := by
    unfold buildGraph
    simp only []
    rw [if_neg hnum]
  refine ⟨hbg, rfl, ?_⟩
  unfold solveCore
  rw [hbg]

/-- Witness for C5: two declared nodes with no branches. -/
theorem c5_unconnected_rejected_witness :
    (0 < (graphNodes discData.nodes discData.branches).length ∧
      ¬ ConnectedData discData) ∧
    buildGraph discData = (none, some unconnectedErr) ∧
    unconnectedErr.message =
      "Circuit is not connected. All nodes must form a connected graph with node \x270\x27 as reference." ∧
    solveCore discData = Outcome.errDict unconnectedErr := by
  have hnc : ¬ ConnectedData discData := by
    intro hcon
    have h1 := (numComponents_eq_one_iff
      (n := (graphNodes discData.nodes discData.branches).length)
      (by decide) (edgesOk_idxPairs discData.nodes discData.branches)).mpr hcon
    revert h1
    decide
  exact ⟨⟨by decide, hnc⟩, c5_unconnected_rejected discData (by decide) hnc⟩

/-! ### Claims C2 and C6 -/

/-- C2: with an invertible twig block, get_cutset_matrix succeeds and
returns exactly Q = [I | Q_l] with Q_l = -(A_t)⁻¹ A_l (so the first
n_twigs columns form the identity), and get_tieset_matrix returns
[-Q_l transposed | I] (so the last n_links columns form the
identity). -/
theorem c2_cutset_tieset_blocks {t l : ℕ}
    (Ared : Matrix (Fin t) (Fin t ⊕ Fin l) ℚ)
    (h : IsUnit (twigBlock Ared)) :
    getCutsetMatrix Ared =
      (some (Matrix.fromColumns 1 (-((twigBlock Ared)⁻¹ * linkBlock Ared))),
        none) ∧
    (∀ i j, Matrix.fromColumns 1 (-((twigBlock Ared)⁻¹ * linkBlock Ared)) i
        (Sum.inl j) = if i = j then (1 : ℚ) else 0) ∧
    (∀ (Ql : Matrix (Fin t) (Fin l) ℚ) (i : Fin l) (j : Fin l),
      getTiesetMatrix Ql i (Sum.inr j) = if i = j then (1 : ℚ) else 0) ∧
    (∀ (Ql : Matrix (Fin t) (Fin l) ℚ) (i : Fin l) (j : Fin t),
      getTiesetMatrix Ql i (Sum.inl j) = -(Ql j i)) := by
  have hdet : (twigBlock Ared).det ≠ 0 := by
    rw [Matrix.isUnit_iff_isUnit_det, isUnit_iff_ne_zero] at h
    exact h
  have hminv : matInv (twigBlock Ared) = some ((twigBlock Ared)⁻¹) := by
    unfold matInv
    rw [if_neg hdet, Matrix.inv_def, Ring.inverse_eq_inv']
  refine ⟨?_, ?_, ?_, ?_⟩
  · unfold getCutsetMatrix
    rw [hminv]
  · intro i j
    rw [Matrix.fromColumns_apply_inl]
    exact Matrix.one_apply
  · intro Ql i j
    unfold getTiesetMatrix
    rw [Matrix.fromColumns_apply_inr]
    exact Matrix.one_apply
  · intro Ql i j
    unfold getTiesetMatrix
    rw [Matrix.fromColumns_apply_inl]
    rfl

/-- Witness for C2: the reduced incidence matrix of the RLC scenario,
whose twig block has determinant -1. -/
theorem c2_cutset_tieset_blocks_witness :
    IsUnit (twigBlock aredRLC) ∧
    (getCutsetMatrix aredRLC =
      (some (Matrix.fromColumns 1
        (-((twigBlock aredRLC)⁻¹ * linkBlock aredRLC))), none) ∧
    (∀ i j, Matrix.fromColumns 1
        (-((twigBlock aredRLC)⁻¹ * linkBlock aredRLC)) i
        (Sum.inl j) = if i = j then (1 : ℚ) else 0) ∧
    (∀ (Ql : Matrix (Fin 2) (Fin 1) ℚ) (i : Fin 1) (j : Fin 1),
      getTiesetMatrix Ql i (Sum.inr j) = if i = j then (1 : ℚ) else 0) ∧
    (∀ (Ql : Matrix (Fin 2) (Fin 1) ℚ) (i : Fin 1) (j : Fin 2),
      getTiesetMatrix Ql i (Sum.inl j) = -(Ql j i))) := by
  have hu : IsUnit (twigBlock aredRLC) := by
    rw [Matrix.isUnit_iff_isUnit_det, isUnit_iff_ne_zero, Matrix.det_fin_two]
    have h00 : twigBlock aredRLC 0 0 = 1 := rfl
    have h01 : twigBlock aredRLC 0 1 = 1 := rfl
    have h10 : twigBlock aredRLC 1 0 = 0 := rfl
    have h11 : twigBlock aredRLC 1 1 = -1 := rfl
    rw [h00, h01, h10, h11]
    norm_num
  exact ⟨hu, c2_cutset_tieset_blocks aredRLC hu⟩

/-- C6: get_cutset_matrix reports the SingularTreeSubmatrix error
exactly when the twig block is not invertible, in which case it returns
no matrix at all; when the twig block is invertible it returns a matrix
and no error. -/
theorem c6_singular_failure_iff {t l : ℕ}
    (Ared : Matrix (Fin t) (Fin t ⊕ Fin l) ℚ) :
    ((getCutsetMatrix Ared).2.isSome ↔ ¬ IsUnit (twigBlock Ared)) ∧
    ((getCutsetMatrix Ared).2.isSome →
      getCutsetMatrix Ared = (none, some singularErr)) ∧
    ((getCutsetMatrix Ared).2 = none →
      ∃ Q, getCutsetMatrix Ared = (some Q, none)) := by
  by_cases hdet : (twigBlock Ared).det = 0
  · have hcm : getCutsetMatrix Ared = (none, some singularErr) := by
      unfold getCutsetMatrix matInv
      rw [if_pos hdet]
    rw [hcm]
    refine ⟨?_, fun _ => rfl, fun hc => absurd hc (by simp)⟩
    simp only [Option.isSome_some, true_iff]
    rw [Matrix.isUnit_iff_isUnit_det, isUnit_iff_ne_zero]
    intro hc
    exact hc hdet
  · have hcm : getCutsetMatrix Ared =
        (some (Matrix.fromColumns 1
          (-(((twigBlock Ared).det⁻¹ • (twigBlock Ared).adjugate) *
            linkBlock Ared))), none) := by
      unfold getCutsetMatrix matInv
      rw [if_neg hdet]
    rw [hcm]
    refine ⟨?_, ?_, ?_⟩
    · simp only [Option.isSome_none, Bool.false_eq_true, false_iff, not_not]
      rw [Matrix.isUnit_iff_isUnit_det, isUnit_iff_ne_zero]
      exact hdet
    · intro hc
      simp at hc
    · intro _
      exact ⟨_, rfl⟩

/-- Witness for C6, applied to a concrete matrix with a singular twig
block (two identical twig columns). -/
theorem c6_singular_failure_iff_witness :
    ((getCutsetMatrix aredSing).2.isSome ↔ ¬ IsUnit (twigBlock aredSing)) ∧
    ((getCutsetMatrix aredSing).2.isSome →
      getCutsetMatrix aredSing = (none, some singularErr)) ∧
    ((getCutsetMatrix aredSing).2 = none →
      ∃ Q, getCutsetMatrix aredSing = (some Q, none)) :=
  c6_singular_failure_iff aredSing

/-! ### Constitutive relation lemmas -/

theorem constitutiveEq_R {b : Branch} (h : b.ty = "R") :
    constitutiveEq b = some (.sub (.var (vName b))
      (.mul (.var (iName b)) (.const b.value))) := by
  unfold constitutiveEq
  rw [if_pos h]

theorem constitutiveEq_L {b : Branch} (h : b.ty = "L") :
    constitutiveEq b = some (.sub (.var (vName b))
      (.mul (.mul (.var (iName b)) .svar) (.const b.value))) := by
  unfold constitutiveEq
  rw [h, if_neg (by decide), if_pos rfl]

theorem constitutiveEq_C {b : Branch} (h : b.ty = "C") :
    constitutiveEq b = some (.sub (.var (vName b))
      (.mul (.var (iName b)) (.div (.const 1) (.mul .svar (.const b.value))))) := by
  unfold constitutiveEq
  rw [h, if_neg (by decide), if_neg (by decide), if_pos rfl]

theorem constitutiveEq_V {b : Branch} (h : b.ty = "V") :
    constitutiveEq b = some (.sub (.var (vName b))
      (.div (.const b.value) .svar)) := by
  unfold constitutiveEq
  rw [h, if_neg (by decide), if_neg (by decide), if_neg (by decide),
    if_pos rfl]

theorem constitutiveEq_I {b : Branch} (h : b.ty = "I") :
    constitutiveEq b = some (.sub (.var (iName b))
      (.div (.const b.value) .svar)) := by
  unfold constitutiveEq
  rw [h, if_neg (by decide), if_neg (by decide), if_neg (by decide),
    if_neg (by decide), if_pos rfl]

theorem constitutiveEq_isSome {b : Branch}
    (h : b.ty = "R" ∨ b.ty = "L" ∨ b.ty = "C" ∨ b.ty = "V" ∨ b.ty = "I") :
    (constitutiveEq b).isSome := by
  rcases h with h | h | h | h | h
  · rw [constitutiveEq_R h]; rfl
  · rw [constitutiveEq_L h]; rfl
  · rw [constitutiveEq_C h]; rfl
  · rw [constitutiveEq_V h]; rfl
  · rw [constitutiveEq_I h]; rfl

theorem filterMap_constitutive_length (bs : List Branch)
    (h : ∀ b ∈ bs, (constitutiveEq b).isSome) :
    (bs.filterMap constitutiveEq).length = bs.length := by
  induction bs with
  | nil => rfl
  | cons a bs ih =>
    cases hca : constitutiveEq a with
    | none =>
      have := h a (List.mem_cons_self a bs)
      rw [hca] at this
      exact absurd this (by simp)
    | some e =>
      rw [List.filterMap_cons, hca]
      simp only [List.length_cons]
      rw [ih fun b hb => h b (List.mem_cons_of_mem a hb)]

/-! ### Claim C1 -/

/-- C1 (amended): for a branch list whose types are all recognised and
with n_twigs + n_links = |branches| (as the pipeline guarantees),
build_equations returns exactly n_twigs + n_links + |branches| =
2 |branches| equations and 2 |branches| unknowns.  The source performs
no squareness check at assembly time; see the counterexample. -/
theorem c1_square_counts (bs : List Branch) (Q B : ℕ → ℕ → ℚ) (nt nl : ℕ)
    (hcnt : nt + nl = bs.length)
    (hty : ∀ b ∈ bs,
      b.ty = "R" ∨ b.ty = "L" ∨ b.ty = "C" ∨ b.ty = "V" ∨ b.ty = "I") :
    (buildEquations bs Q B nt nl).1.length = 2 * bs.length ∧
    (buildEquations bs Q B nt nl).2.length = 2 * bs.length := by
  unfold buildEquations
  constructor
  · simp only [List.length_append, List.length_map, List.length_range]
    rw [filterMap_constitutive_length bs
      fun b hb => constitutiveEq_isSome (hty b hb)]
    omega
  · simp only [List.length_append, List.length_map]
    omega

/-- Witness for C1: the RLC scenario branches with n_twigs = 2 and
n_links = 1. -/
theorem c1_square_counts_witness :
    (2 + 1 = rlcData.branches.length ∧
      (∀ b ∈ rlcData.branches,
        b.ty = "R" ∨ b.ty = "L" ∨ b.ty = "C" ∨ b.ty = "V" ∨ b.ty = "I")) ∧
    (buildEquations rlcData.branches (fun _ _ => 0) (fun _ _ => 0) 2 1).1.length
        = 2 * rlcData.branches.length ∧
    (buildEquations rlcData.branches (fun _ _ => 0) (fun _ _ => 0) 2 1).2.length
        = 2 * rlcData.branches.length :=
  ⟨⟨by decide, by decide⟩,
    c1_square_counts rlcData.branches (fun _ _ => 0) (fun _ _ => 0) 2 1
      (by decide) (by decide)⟩

/-- Counterexample for C1: no squareness invariant is checked at
assembly time.  On a branch of unrecognised type the function returns
normally with 1 equation against 2 unknowns, a non-square system that
no check flags. -/
theorem c1_counterexample :
    (buildEquations
        [{ id := "X1", fromN := "0", toN := "1", ty := "X", value := 1 }]
        (fun _ _ => 0) (fun _ _ => 0) 1 0).1.length ≠ 2 * 1 ∧
    (buildEquations
        [{ id := "X1", fromN := "0", toN := "1", ty := "X", value := 1 }]
        (fun _ _ => 0) (fun _ _ => 0) 1 0).1.length = 1 ∧
    (buildEquations
        [{ id := "X1", fromN := "0", toN := "1", ty := "X", value := 1 }]
        (fun _ _ => 0) (fun _ _ => 0) 1 0).2.length = 2 := by
  refine ⟨?_, ?_, ?_⟩ <;> decide

/-! ### Claim C4 -/

theorem drop_len_append {α : Type} (l1 l2 : List α) (n : ℕ)
    (h : l1.length = n) : (l1 ++ l2).drop n = l2 := by
  rw [← h, List.drop_left]

/-- C4: the constitutive block of build_equations (the equations after
the n_twigs + n_links Kirchhoff rows) is exactly one relation per
recognised branch, and for each type the emitted relation evaluates as
the specified expression: V - I R, V - I s L, V - I/(s C), V - Vs/s,
I - Is/s.  In particular for the RLC scenario branch C1 (type C, value
0.1), the emitted relation evaluates to V_C1 - I_C1/(0.1 s). -/
theorem c4_constitutive_relations :
    (∀ (bs : List Branch) (Q B : ℕ → ℕ → ℚ) (nt nl : ℕ),
      ((buildEquations bs Q B nt nl).1).drop (nt + nl) =
        bs.filterMap constitutiveEq) ∧
    (∀ (b : Branch) (v : String → ℚ) (s : ℚ),
      (b.ty = "R" → ∃ e, constitutiveEq b = some e ∧
        e.eval v s = v (vName b) - v (iName b) * b.value) ∧
      (b.ty = "L" → ∃ e, constitutiveEq b = some e ∧
        e.eval v s = v (vName b) - v (iName b) * s * b.value) ∧
      (b.ty = "C" → ∃ e, constitutiveEq b = some e ∧
        e.eval v s = v (vName b) - v (iName b) / (s * b.value)) ∧
      (b.ty = "V" → ∃ e, constitutiveEq b = some e ∧
        e.eval v s = v (vName b) - b.value / s) ∧
      (b.ty = "I" → ∃ e, constitutiveEq b = some e ∧
        e.eval v s = v (iName b) - b.value / s)) ∧
    (∃ e, constitutiveEq
        { id := "C1", fromN := "2", toN := "0", ty := "C", value := 1/10 } =
        some e ∧
      ∀ (v : String → ℚ) (s : ℚ),
        e.eval v s = v "V_C1" - v "I_C1" / ((1/10) * s)) := by
  refine ⟨?_, ?_, ?_⟩
  · intro bs Q B nt nl
    refine drop_len_append _ _ _ ?_
    simp only [List.length_append, List.length_map, List.length_range]
  · intro b v s
    refine ⟨?_, ?_, ?_, ?_, ?_⟩
    · intro h
      exact ⟨_, constitutiveEq_R h, rfl⟩
    · intro h
      exact ⟨_, constitutiveEq_L h, rfl⟩
    · intro h
      refine ⟨_, constitutiveEq_C h, ?_⟩
      show v (vName b) - v (iName b) * (1 / (s * b.value)) =
        v (vName b) - v (iName b) / (s * b.value)
      rw [mul_one_div]
    · intro h
      exact ⟨_, constitutiveEq_V h, rfl⟩
    · intro h
      exact ⟨_, constitutiveEq_I h, rfl⟩
  · refine ⟨Expr.sub (.var "V_C1") (.mul (.var "I_C1")
      (.div (.const 1) (.mul .svar (.const (1/10))))), rfl, ?_⟩
    intro v s
    show v "V_C1" - v "I_C1" * (1 / (s * (1/10))) =
      v "V_C1" - v "I_C1" / ((1/10) * s)
    rw [mul_one_div, mul_comm s (1/10 : ℚ)]

/-- Witness for C4: the scenario conjunct of the theorem, a closed
instance about the C1 branch. -/
theorem c4_constitutive_relations_witness :
    ∃ e, constitutiveEq
        { id := "C1", fromN := "2", toN := "0", ty := "C", value := 1/10 } =
        some e ∧
      ∀ (v : String → ℚ) (s : ℚ),
        e.eval v s = v "V_C1" - v "I_C1" / ((1/10) * s) :=
  c4_constitutive_relations.2.2

/-! ### Claim C10 -/

/-- C10: on a branch whose type is outside R, L, C, V, I,
build_equations returns normally (it has no failure path), emits no
constitutive relation for that branch, and hands back fewer equations
than unknowns: here 1 KCL + 1 KVL + 1 relation (for R1 only) = 3
equations against 4 unknowns. -/
theorem c10_unknown_type_nonsquare :
    constitutiveEq
      { id := "D1", fromN := "0", toN := "1", ty := "D", value := 1 } =
        none ∧
    (buildEquations
        [{ id := "D1", fromN := "0", toN := "1", ty := "D", value := 1 },
         { id := "R1", fromN := "1", toN := "0", ty := "R", value := 2 }]
        (fun _ _ => 0) (fun _ _ => 0) 1 1).1.length = 3 ∧
    (buildEquations
        [{ id := "D1", fromN := "0", toN := "1", ty := "D", value := 1 },
         { id := "R1", fromN := "1", toN := "0", ty := "R", value := 2 }]
        (fun _ _ => 0) (fun _ _ => 0) 1 1).2.length = 4 ∧
    (buildEquations
        [{ id := "D1", fromN := "0", toN := "1", ty := "D", value := 1 },
         { id := "R1", fromN := "1", toN := "0", ty := "R", value := 2 }]
        (fun _ _ => 0) (fun _ _ => 0) 1 1).1.length <
      (buildEquations
        [{ id := "D1", fromN := "0", toN := "1", ty := "D", value := 1 },
         { id := "R1", fromN := "1", toN := "0", ty := "R", value := 2 }]
        (fun _ _ => 0) (fun _ _ => 0) 1 1).2.length := by
  refine ⟨?_, ?_, ?_, ?_⟩ <;> decide

/-! ### Claim C8 -/

theorem mem_selectTree_sorted (g : Graph) (bs : List Branch) {b : Branch}
    (hb : b ∈ bs) : b ∈ (selectTree g bs).2.2.2 := by
  show b ∈ (bs.filter fun c => c.id ∈ treeIds g) ++
    (bs.filter fun c => c.id ∉ treeIds g)
  by_cases h : b.id ∈ treeIds g
  · exact List.mem_append_left _
      (List.mem_filter.mpr ⟨hb, by rw [decide_eq_true_eq]; exact h⟩)
  · exact List.mem_append_right _
      (List.mem_filter.mpr ⟨hb, by rw [decide_eq_true_eq]; exact h⟩)

theorem solveCore_raise (cd : CircuitData) (g : Graph)
    (hbg : buildGraph cd = (some g, none))
    (hinc : getIncidenceMatrix cd.nodes
      (selectTree g cd.branches).2.2.2 = none) :
    solveCore cd = Outcome.raise "KeyError" := by
  unfold solveCore
  rw [hbg]
  dsimp only [Option.getD_some]
  rw [hinc]

theorem getIncidenceMatrix_missing_none (nodes : List String)
    (branches : List Branch) (b : Branch) (hb : b ∈ branches)
    (hbad : b.fromN ∉ nodes ∨ b.toN ∉ nodes) :
    getIncidenceMatrix nodes branches = none := by
  have hcond : ¬ (branches.all fun b =>
      decide (b.fromN ∈ nodes) && decide (b.toN ∈ nodes)) = true := by
    rw [List.all_eq_true]
    intro hall
    have h2 := hall b hb
    rw [Bool.and_eq_true, decide_eq_true_eq, decide_eq_true_eq] at h2
    rcases hbad with h | h
    · exact h h2.1
    · exact h h2.2
  unfold getIncidenceMatrix
  rw [if_neg hcond]

/-- C8 (amended): a branch endpoint missing from the declared node list
is not rejected early with an InputError; build_graph still succeeds
when the grown graph is connected and the failure surfaces inside
get_incidence_matrix as a KeyError from the node dictionary lookup, so
no incidence matrix with an out-of-range index is ever produced. -/
theorem c8_undeclared_endpoint (nodes : List String)
    (branches : List Branch) (b : Branch) (hb : b ∈ branches)
    (hbad : b.fromN ∉ nodes ∨ b.toN ∉ nodes) :
    getIncidenceMatrix nodes branches = none :=
  getIncidenceMatrix_missing_none nodes branches b hb hbad

/-- Counterexample for C8: a branch citing undeclared node 2 is not
rejected before matrix construction.  build_graph adds node 2 to the
graph, finds it connected, and succeeds; the pipeline proceeds into
tree selection and fails only inside get_incidence_matrix with an
uncaught KeyError, which is no InputError rejection. -/
theorem c8_counterexample :
    (∃ b ∈ badEndpointData.branches, b.toN ∉ badEndpointData.nodes) ∧
    (buildGraph badEndpointData).1.isSome ∧
    (buildGraph badEndpointData).2 = none ∧
    solveCore badEndpointData = Outcome.raise "KeyError" := by
  refine ⟨by decide, by decide, by decide, ?_⟩
  refine solveCore_raise badEndpointData (circuitGraph badEndpointData)
    (by decide) ?_
  exact getIncidenceMatrix_missing_none badEndpointData.nodes _
    { id := "R2", fromN := "1", toN := "2", ty := "R", value := 1 }
    (mem_selectTree_sorted _ _ (by decide)) (by decide)


/-- Witness for C8: the undeclared-endpoint circuit. -/
theorem c8_undeclared_endpoint_witness :
    (({ id := "R2", fromN := "1", toN := "2", ty := "R", value := 1 } : Branch) ∈
        badEndpointData.branches ∧
      (({ id := "R2", fromN := "1", toN := "2", ty := "R", value := 1 } : Branch).fromN ∉ badEndpointData.nodes ∨
        ({ id := "R2", fromN := "1", toN := "2", ty := "R", value := 1 } : Branch).toN ∉ badEndpointData.nodes)) ∧
    getIncidenceMatrix badEndpointData.nodes badEndpointData.branches =
      none :=
  ⟨⟨by decide, by decide⟩,
    c8_undeclared_endpoint badEndpointData.nodes badEndpointData.branches
      { id := "R2", fromN := "1", toN := "2", ty := "R", value := 1 }
      (by decide) (by decide)⟩

/-! ### Claim C9 -/

/-- Counterexample for C9: select_tree does not leave its input graph
unchanged.  On the RLC circuit graph (whose edges carry no weight
attribute yet) the graph select_tree hands back differs from the input:
every edge now carries a weight attribute. -/
theorem c9_counterexample :
    (selectTree (circuitGraph rlcData) rlcData.branches).1 ≠
      circuitGraph rlcData := by
  decide

/-- C9 (amended): the only mutation select_tree performs on its input
graph is writing the weight attribute (V → 0, I → 100, else → 1) on
every edge; nodes are untouched and no edge is added or removed.  The
partition it returns is a function of its arguments alone. -/
theorem c9_weight_mutation_only (g : Graph) (branches : List Branch) :
    (selectTree g branches).1.nodes = g.nodes ∧
    (selectTree g branches).1.edges =
      (g.edges.map fun e => { e with weight := some (weightOf e.ty) }) ∧
    (selectTree g branches).1.edges.length = g.edges.length := by
  refine ⟨rfl, rfl, ?_⟩
  have h2 : (selectTree g branches).1.edges =
      g.edges.map fun e => { e with weight := some (weightOf e.ty) } := rfl
  rw [h2, List.length_map]

end Circuit
